import Mathlib

/-!
A shallow embedding of `songhash.py`, a tool that incrementally fingerprints a
directory of media files, persists the fingerprints in a flat tab-separated
database, and diffs two database snapshots.

Modelling conventions:
* Python `str` (and file contents / `bytes`) are modelled as `List Char`.
* A `pathlib.Path` is modelled as its list of components, `List (List Char)`
  (`PathC`); rendering joins components with `'/'`, parsing splits on `'/'`
  and drops empty and `'.'` components (Python's `Path` constructor
  normalisation).
* A Python `dict[Path, SongHash]` is modelled as an association list with
  Python-dict semantics: lookup finds the first matching key, insertion
  replaces the value at an existing key in place and otherwise appends.
* SHA-256 itself is kept abstract: every operation that hashes is
  parametrised by a function `hashFn : List Char → List Char`.
* Python `int` is `Int`; `int(...)` strips surrounding whitespace, then
  accepts an optional sign and decimal digits with `'_'` group separators
  between digits.
* Reading the database file happens in text mode with universal newlines:
  `'\r\n'` and a lone `'\r'` are translated to `'\n'` before lines are
  split, exactly as `open(filename, "r")` does.
* The character-level model is exact on the ASCII fragment of Python's
  text handling: `isWS` is the ASCII part of the Unicode whitespace set
  that `str.strip()` and `int()` remove, and digits are the ASCII decimal
  digits.  Theorems about parsing arbitrary texts are therefore stated for
  ASCII texts, and the serialization round trip for databases whose fields
  are ASCII; outside ASCII, Python strips additional whitespace code
  points and accepts additional Unicode decimal digits.
* Exceptions that escape a function are modelled by `Option`/result `none`.
-/

/-- Python string type in this model. -/
abbrev Chars := List Char

/-- A `pathlib.Path`, as its list of components. -/
abbrev PathC := List Chars

/-- Characters stripped by Python's `str.strip()` and `int()`: the ASCII
part of the Unicode whitespace set (space, tab, LF, CR, VT, FF, and the
separator control characters FS, GS, RS, US). -/
def isWS (c : Char) : Bool :=
  c = ' ' || c = '\t' || c = '\n' || c = '\r' || c = '\x0b' || c = '\x0c' ||
    c = '\x1c' || c = '\x1d' || c = '\x1e' || c = '\x1f'

/-- `s.split(sep)` for a one-character separator, Python semantics:
`splitChar c s` always returns at least one (possibly empty) group. -/
def splitChar (c : Char) : Chars → List Chars
  | [] => [[]]
  | a :: rest =>
    match splitChar c rest with
    | [] => [[]]
    | g :: gs => if a = c then [] :: g :: gs else (a :: g) :: gs

/-- The inverse of `splitChar`: join groups with the separator character. -/
def joinChar (c : Char) : List Chars → Chars
  | [] => []
  | [g] => g
  | g :: gs => g ++ c :: joinChar c gs

/-- Python `str.strip()`: drop whitespace from both ends. -/
def trimChars (l : Chars) : Chars :=
  ((l.dropWhile isWS).reverse.dropWhile isWS).reverse

/-- Drop a final empty group (a trailing newline yields no extra line in
Python's `readlines`). -/
def stripTrailingEmpty (ls : List Chars) : List Chars :=
  match ls.getLast? with
  | some [] => ls.dropLast
  | _ => ls

/-- Universal-newline translation, one character at a time; the flag records
whether the previous character was `'\r'` (so that the `'\n'` of a `'\r\n'`
pair is swallowed). -/
def univNLAux : Bool → Chars → Chars
  | _, [] => []
  | prevCR, c :: rest =>
    if c = '\r' then '\n' :: univNLAux true rest
    else if c = '\n' then
      (if prevCR then univNLAux false rest else '\n' :: univNLAux false rest)
    else c :: univNLAux false rest

/-- Universal-newline translation as performed by `open(filename, "r")`:
`'\r\n'` and a lone `'\r'` both become `'\n'`. -/
def univNL (s : Chars) : Chars := univNLAux false s

/-- `f.readlines()` on a text-mode file followed by stripping each line, as
done in `read_database`: universal-newline translation, then splitting on
`'\n'` (with no empty final line), then `strip()` per line. -/
def readLines (text : Chars) : List Chars :=
  (stripTrailingEmpty (splitChar '\n' (univNL text))).map trimChars

/-- Numeric value of a decimal digit character. -/
def digitVal (c : Char) : Nat := c.toNat - 48

/-- The digit-and-underscore tail of a Python decimal numeral: after a
digit, an `'_'` may appear only when immediately followed by another digit
(`1_0` parses, `1__0`, `1_` and `_1` do not). -/
def parseDigitsAux : Nat → Chars → Option Nat
  | acc, [] => some acc
  | acc, c :: rest =>
    if c.isDigit then parseDigitsAux (10 * acc + digitVal c) rest
    else if c = '_' then
      match rest with
      | [] => none
      | c2 :: _ => if c2.isDigit then parseDigitsAux acc rest else none
    else none

/-- An unsigned Python decimal numeral: a digit followed by digits with
optional `'_'` group separators between digits. -/
def parseNat (l : Chars) : Option Nat :=
  match l with
  | [] => none
  | c :: rest => if c.isDigit then parseDigitsAux (digitVal c) rest else none

/-- Python `int(s)`: strip surrounding whitespace, then an optional sign
immediately followed by the digits (with `'_'` separators). -/
def parseInt (l : Chars) : Option Int :=
  match trimChars l with
  | [] => none
  | c :: rest =>
    if c = '-' then (parseNat rest).map (fun n => -(n : Int))
    else if c = '+' then (parseNat rest).map (fun n => (n : Int))
    else (parseNat (c :: rest)).map (fun n => (n : Int))

/-- The decimal digit character for `n < 10`. -/
def digitChar (n : Nat) : Char := Char.ofNat (48 + n)

/-- Fuelled decimal rendering of a natural number (most significant digit
first); total for `fuel > n`. -/
def ntcFuel : Nat → Nat → Chars
  | 0, _ => []
  | fuel + 1, n =>
    if n < 10 then [digitChar n]
    else ntcFuel fuel (n / 10) ++ [digitChar (n % 10)]

/-- Decimal rendering of a natural number, as Python's `str`/f-string. -/
def natChars (n : Nat) : Chars := ntcFuel (n + 1) n

/-- Decimal rendering of an integer, as Python's `str`/f-string. -/
def intChars (t : Int) : Chars :=
  if t < 0 then '-' :: natChars t.natAbs else natChars t.natAbs

/-- `str(path)`: join the components with `'/'`. -/
def renderPath (p : PathC) : Chars := joinChar '/' p

/-- `Path(s)`: split on `'/'` and drop empty and `'.'` components (the
constructor's normalisation of duplicate slashes, trailing slashes and
`'.'` segments). -/
def parsePath (s : Chars) : PathC :=
  (splitChar '/' s).filter (fun comp => decide (comp ≠ [] ∧ comp ≠ ['.']))

/-- `p.relative_to(base)`: strip `base` as a leading run of components;
Python raises `ValueError` (here `none`) when `base` is not a prefix. -/
def relative_to : PathC → PathC → Option PathC
  | p, [] => some p
  | [], _ :: _ => none
  | a :: p, b :: base => if a = b then relative_to p base else none

/-- `SongFileData`: a discovered file with its mtime in nanoseconds. -/
structure SongFileData where
  path : PathC
  timestamp_ns : Int
deriving DecidableEq, Repr

/-- `Song`: a fully read file as produced by the pipeline's producer. -/
structure Song where
  path : PathC
  contents : Chars
  number : Nat
  timestamp_ns : Int
deriving DecidableEq, Repr

/-- `SongHash`: a persisted digest record. -/
structure SongHash where
  path : PathC
  sha256 : Chars
  timestamp_ns : Int
deriving DecidableEq, Repr

instance : Inhabited SongFileData := ⟨⟨[], 0⟩⟩

instance : Inhabited Song := ⟨⟨[], [], 0, 0⟩⟩

instance : Inhabited SongHash := ⟨⟨[], [], 0⟩⟩

/-- `SongHash.from_song`, with the hash function abstracted. -/
def SongHash.from_song (hashFn : Chars → Chars) (s : Song) : SongHash :=
  ⟨s.path, hashFn s.contents, s.timestamp_ns⟩

/-- `Database`: a base directory plus the path-keyed record dict. -/
structure Database where
  base_directory : PathC
  hashes : List (PathC × SongHash)
deriving DecidableEq, Repr

instance : Inhabited Database := ⟨⟨[], []⟩⟩

/-- `dict.get`: first association for the key, if any. -/
def dictGet : List (PathC × SongHash) → PathC → Option SongHash
  | [], _ => none
  | kv :: rest, k => if kv.1 = k then some kv.2 else dictGet rest k

/-- A single-key `dict` update: replace in place if the key exists,
otherwise append. -/
def dictInsert : List (PathC × SongHash) → PathC → SongHash → List (PathC × SongHash)
  | [], k, v => [(k, v)]
  | kv :: rest, k, v =>
    if kv.1 = k then (k, v) :: rest else kv :: dictInsert rest k v

/-- Fold a list of key-value pairs into a dict, later pairs winning. -/
def dictInsertAll (m : List (PathC × SongHash)) (ps : List (PathC × SongHash)) :
    List (PathC × SongHash) :=
  ps.foldl (fun acc kv => dictInsert acc kv.1 kv.2) m

/-- `Database.is_newer_than_recorded`: `none` models the `ValueError` raised
by `relative_to` for a path outside the base directory. -/
def Database.is_newer_than_recorded (db : Database) (s : SongFileData) : Option Bool :=
  (relative_to s.path db.base_directory).map fun rel =>
    match dictGet db.hashes rel with
    | none => true
    | some h => decide (h.timestamp_ns < s.timestamp_ns)

/-- `Database.matches_recorded_hash`: `none` models the `KeyError` from
`self.hashes[song_hash.path]`. -/
def Database.matches_recorded_hash (db : Database) (h : SongHash) : Option Bool :=
  (dictGet db.hashes h.path).map fun rec => decide (rec.sha256 = h.sha256)

/-- One element of the generator inside `Database.update`: relativise the
record's path and store it back into the record. -/
def relPair (base : PathC) (s : SongHash) : Option (PathC × SongHash) :=
  (relative_to s.path base).map fun rel => (rel, { s with path := rel })

/-- The whole generator inside `Database.update`; `none` when any
`relative_to` raises. -/
def relPairs (base : PathC) : List SongHash → Option (List (PathC × SongHash))
  | [] => some []
  | s :: rest =>
    match relPair base s, relPairs base rest with
    | some kv, some kvs => some (kv :: kvs)
    | _, _ => none

/-- `Database.update`: merge the new records into the dict by relative path.
The Python method mutates in place; the model returns the new database. -/
def Database.update (db : Database) (new_hashes : List SongHash) : Option Database :=
  (relPairs db.base_directory new_hashes).map fun pairs =>
    { db with hashes := dictInsertAll db.hashes pairs }

/-- `get_songs_to_update`: keep the files `is_newer_than_recorded`; `none`
models an escaped `ValueError`. -/
def get_songs_to_update (songs : List SongFileData) (old_database : Database) :
    Option (List SongFileData) :=
  match songs with
  | [] => some []
  | s :: rest =>
    match old_database.is_newer_than_recorded s, get_songs_to_update rest old_database with
    | some b, some r => some (if b then s :: r else r)
    | _, _ => none

/-- One database line `path<TAB>sha256<TAB>timestamp`, as unpacked and
converted in `read_database`; `none` models the `ValueError` from a wrong
field count or a non-integer timestamp. -/
def parseLine (l : Chars) : Option (PathC × SongHash) :=
  match splitChar '\t' l with
  | [file, sha, ts] =>
    (parseInt ts).map fun n =>
      (parsePath file, ⟨parsePath file, sha, n⟩)
  | _ => none

/-- All record lines of a database file, failing on the first bad line. -/
def parseLines : List Chars → Option (List (PathC × SongHash))
  | [] => some []
  | l :: rest =>
    match parseLine l, parseLines rest with
    | some kv, some kvs => some (kv :: kvs)
    | _, _ => none

/-- `read_database` on the text of an existing file: first line is the base
directory, every further line a record; `none` models an escaped
`ValueError` (the spec's ParseError). -/
def load (text : Chars) : Option Database :=
  match readLines text with
  | [] => none
  | header :: rest =>
    (parseLines rest).map fun pairs =>
      ⟨parsePath header, dictInsertAll [] pairs⟩

/-- Lexicographic comparison of character lists (Python string `<=`). -/
def charsLE : Chars → Chars → Bool
  | [], _ => true
  | _ :: _, [] => false
  | a :: as_, b :: bs => if a = b then charsLE as_ bs else decide (a < b)

/-- The order `sorted` uses on `SongHash` (dataclass `order=True`):
lexicographic on the rendered path, then the digest, then the timestamp. -/
def shLE (a b : SongHash) : Bool :=
  if renderPath a.path = renderPath b.path then
    if a.sha256 = b.sha256 then decide (a.timestamp_ns ≤ b.timestamp_ns)
    else charsLE a.sha256 b.sha256
  else charsLE (renderPath a.path) (renderPath b.path)

/-- Insertion step of the sort used to model Python's `sorted`. -/
def insertLe (x : SongHash) : List SongHash → List SongHash
  | [] => [x]
  | y :: ys => if shLE x y then x :: y :: ys else y :: insertLe x ys

/-- `sorted(database.hashes.values())`. -/
def sortHashes (l : List SongHash) : List SongHash :=
  l.foldr insertLe []

/-- One record line as printed by `output` (without the newline). -/
def lineOf (h : SongHash) : Chars :=
  renderPath h.path ++ '\t' :: (h.sha256 ++ '\t' :: intChars h.timestamp_ns)

/-- `output`: the exact text written to the database file. -/
def serialize (db : Database) : Chars :=
  renderPath db.base_directory ++ '\n' ::
    ((sortHashes (db.hashes.map (·.2))).map (fun h => lineOf h ++ ['\n'])).flatten

/-- `Diff` of two databases. -/
structure Diff where
  added : List PathC
  removed : List PathC
  modified : List PathC
deriving DecidableEq, Repr

/-- The first loop of `diff_databases`, building `removed` and `modified`;
`none` models the `KeyError` that `matches_recorded_hash` may raise. -/
def diffOld (newer : Database) : List (PathC × SongHash) → Option (List PathC × List PathC)
  | [] => some ([], [])
  | (path, sh) :: rest =>
    if (dictGet newer.hashes path).isSome then
      match newer.matches_recorded_hash sh, diffOld newer rest with
      | some true, some rm => some rm
      | some false, some rm => some (rm.1, path :: rm.2)
      | _, _ => none
    else
      (diffOld newer rest).map fun rm => (path :: rm.1, rm.2)

/-- The second loop of `diff_databases`, building `added`. -/
def diffAdded (older newer : Database) : List PathC :=
  (newer.hashes.filter (fun kv => (dictGet older.hashes kv.1).isNone)).map (·.1)

/-- `diff_databases`. -/
def diff_databases (older newer : Database) : Option Diff :=
  (diffOld newer older.hashes).map fun rm =>
    ⟨diffAdded older newer, rm.1, rm.2⟩

/-- The result list `hash_songs` hands back to `scan` (the functional value
of the pipeline; the concurrent pipeline is modelled and related to this
below). `read` supplies each file's bytes. -/
def hash_songs_fn (hashFn : Chars → Chars) (read : SongFileData → Chars)
    (songs : List SongFileData) : List SongHash :=
  songs.map fun f => ⟨f.path, hashFn (read f), f.timestamp_ns⟩

/-- The stderr diagnostic printed by `ensure_database` on a base-directory
mismatch. -/
def cowardlyMsg : Chars :=
  "Cowardly refusing to update a database for a different directory.".toList

/-- Observable outcome of one `scan` invocation. -/
structure ScanResult where
  exit_code : Option Nat
  dbfile : Option Chars
  hashed : List SongFileData
  stderr : List Chars
deriving DecidableEq, Repr

/-- The body of `scan` after `ensure_database` has produced a database. -/
def scanWith (hashFn : Chars → Chars) (read : SongFileData → Chars)
    (dbfile : Option Chars) (files : List SongFileData) (db : Database) :
    Option ScanResult :=
  match get_songs_to_update files db with
  | none => none
  | some [] => some ⟨none, dbfile, [], []⟩
  | some stale =>
    match db.update (hash_songs_fn hashFn read stale) with
    | none => none
    | some db' => some ⟨none, some (serialize db'), stale, []⟩

/-- `scan directory filename base_directory`, over a file system in which the
database file holds `dbfile` and enumeration produced `files` (the walk is an
external collaborator). `none` models an uncaught exception; an
`exit_code = some 1` models `typer.Exit(1)`. -/
def scan (hashFn : Chars → Chars) (read : SongFileData → Chars)
    (dbfile : Option Chars) (base : PathC) (files : List SongFileData) :
    Option ScanResult :=
  match dbfile with
  | none => scanWith hashFn read none files ⟨base, []⟩
  | some t =>
    match load t with
    | none => none
    | some db =>
      if db.base_directory = base then scanWith hashFn read (some t) files db
      else some ⟨some 1, some t, [], [cowardlyMsg]⟩

/-! ### The concurrent pipeline

`hash_songs` starts `read_songs_into_queue` on a separate thread and runs
`hash_songs_from_queue` on the calling thread; the two communicate only over
a FIFO `Queue` of capacity 8, with `None` as the end-of-stream sentinel.  The
interleaving semantics is a small-step transition system; `read` returns
`none` for a file whose `open`/`read` raises, which kills the producer
thread mid-loop. -/

/-- Program point of the producer thread (`read_songs_into_queue`). -/
inductive ProdPhase
  | running (remaining : List SongFileData)
  | done
  | crashed
deriving DecidableEq, Repr

/-- A global state of the `hash_songs` pipeline: producer phase, queue
contents (front first, `none` is the sentinel), the consumer's accumulated
result list, whether the consumer has returned, and the producer's
`enumerate` counter. -/
structure PipeState where
  prod : ProdPhase
  queue : List (Option Song)
  results : List SongHash
  consDone : Bool
  nextNumber : Nat
deriving DecidableEq, Repr

/-- One interleaving step of the pipeline. -/
inductive PipeStep (read : SongFileData → Option Chars) (hashFn : Chars → Chars) :
    PipeState → PipeState → Prop
  | produce {f : SongFileData} {rest q res cd n c} :
      read f = some c → q.length < 8 →
      PipeStep read hashFn
        ⟨.running (f :: rest), q, res, cd, n⟩
        ⟨.running rest, q ++ [some ⟨f.path, c, n, f.timestamp_ns⟩], res, cd, n + 1⟩
  | readFail {f : SongFileData} {rest q res cd n} :
      read f = none →
      PipeStep read hashFn
        ⟨.running (f :: rest), q, res, cd, n⟩
        ⟨.crashed, q, res, cd, n⟩
  | sentinel {q res cd n} :
      q.length < 8 →
      PipeStep read hashFn
        ⟨.running [], q, res, cd, n⟩
        ⟨.done, q ++ [none], res, cd, n⟩
  | consume {p q res n} {s : Song} :
      PipeStep read hashFn
        ⟨p, some s :: q, res, false, n⟩
        ⟨p, q, res ++ [SongHash.from_song hashFn s], false, n⟩
  | finish {p q res n} :
      PipeStep read hashFn
        ⟨p, none :: q, res, false, n⟩
        ⟨p, q, res, true, n⟩

/-- The pipeline's initial state for a given input list. -/
def pipeInit (files : List SongFileData) : PipeState :=
  ⟨.running files, [], [], false, 1⟩

/-- Reachability in the pipeline's transition system. -/
def PipeReach (read : SongFileData → Option Chars) (hashFn : Chars → Chars) :
    PipeState → PipeState → Prop :=
  Relation.ReflTransGen (PipeStep read hashFn)

/-- A state with no enabled step (a deadlock unless the consumer has
returned). -/
def PipeStuck (read : SongFileData → Option Chars) (hashFn : Chars → Chars)
    (s : PipeState) : Prop :=
  ∀ s', ¬ PipeStep read hashFn s s'

/-! ### Dictionary lemmas -/

/-- Left-biased choice on optional lookup results. -/
def oOr : Option SongHash → Option SongHash → Option SongHash
  | some v, _ => some v
  | none, o => o

theorem oOr_assoc (a b c : Option SongHash) : oOr a (oOr b c) = oOr (oOr a b) c := by
  cases a <;> cases b <;> rfl

theorem dictGet_insert (m : List (PathC × SongHash)) (k' : PathC) (v' : SongHash)
    (k : PathC) :
    dictGet (dictInsert m k' v') k = if k' = k then some v' else dictGet m k := by
  induction m with
  | nil => simp [dictGet, dictInsert]
  | cons kv rest ih =>
    obtain ⟨a, w⟩ := kv
    by_cases h1 : a = k'
    · subst h1
      have hins : dictInsert ((a, w) :: rest) a v' = (a, v') :: rest := by
        simp [dictInsert]
      rw [hins]
      by_cases h2 : a = k
      · subst h2
        simp [dictGet]
      · simp [dictGet, h2]
    · have hins : dictInsert ((a, w) :: rest) k' v' = (a, w) :: dictInsert rest k' v' := by
        simp [dictInsert, h1]
      rw [hins]
      by_cases h2 : a = k
      · subst h2
        have hne : ¬ k' = a := fun he => h1 he.symm
        simp [dictGet, hne]
      · simp [dictGet, h2, ih]

theorem dictGet_append (l1 l2 : List (PathC × SongHash)) (k : PathC) :
    dictGet (l1 ++ l2) k = oOr (dictGet l1 k) (dictGet l2 k) := by
  induction l1 with
  | nil => simp [dictGet, oOr]
  | cons kv rest ih =>
    by_cases h : kv.1 = k <;> simp [dictGet, h, ih, oOr]

theorem dictGet_insertAll (ps : List (PathC × SongHash)) (m : List (PathC × SongHash))
    (k : PathC) :
    dictGet (dictInsertAll m ps) k = oOr (dictGet ps.reverse k) (dictGet m k) := by
  induction ps generalizing m with
  | nil => simp [dictInsertAll, dictGet, oOr]
  | cons kv rest ih =>
    have hstep : dictInsertAll m (kv :: rest) = dictInsertAll (dictInsert m kv.1 kv.2) rest := by
      simp [dictInsertAll]
    rw [hstep, ih, dictGet_insert]
    have : dictGet ((kv :: rest).reverse) k =
        oOr (dictGet rest.reverse k) (dictGet [kv] k) := by
      rw [List.reverse_cons, dictGet_append]
    rw [this, ← oOr_assoc]
    by_cases h : kv.1 = k <;> simp [dictGet, h, oOr]

/-- Keys of a dict after a single insertion. -/
theorem mem_keys_dictInsert (m : List (PathC × SongHash)) (k' : PathC) (v' : SongHash)
    (k : PathC) :
    k ∈ (dictInsert m k' v').map (·.1) ↔ k = k' ∨ k ∈ m.map (·.1) := by
  induction m with
  | nil => simp [dictInsert]
  | cons kv rest ih =>
    obtain ⟨a, w⟩ := kv
    by_cases h : a = k'
    · subst h
      have hins : dictInsert ((a, w) :: rest) a v' = (a, v') :: rest := by
        simp [dictInsert]
      rw [hins]
      simp only [List.map_cons, List.mem_cons]
      tauto
    · have hins : dictInsert ((a, w) :: rest) k' v' = (a, w) :: dictInsert rest k' v' := by
        simp [dictInsert, h]
      rw [hins]
      simp only [List.map_cons, List.mem_cons, ih]
      tauto

theorem nodup_keys_dictInsert (m : List (PathC × SongHash)) (k' : PathC) (v' : SongHash)
    (h : (m.map (·.1)).Nodup) : ((dictInsert m k' v').map (·.1)).Nodup := by
  induction m with
  | nil => simp [dictInsert]
  | cons kv rest ih =>
    obtain ⟨a, w⟩ := kv
    simp only [List.map_cons, List.nodup_cons] at h
    by_cases hk : a = k'
    · subst hk
      have hins : dictInsert ((a, w) :: rest) a v' = (a, v') :: rest := by
        simp [dictInsert]
      rw [hins]
      simp only [List.map_cons, List.nodup_cons]
      exact ⟨h.1, h.2⟩
    · have hins : dictInsert ((a, w) :: rest) k' v' = (a, w) :: dictInsert rest k' v' := by
        simp [dictInsert, hk]
      rw [hins]
      simp only [List.map_cons, List.nodup_cons]
      refine ⟨?_, ih h.2⟩
      intro hmem
      rcases (mem_keys_dictInsert rest k' v' a).1 hmem with h1 | h1
      · exact hk h1
      · exact h.1 h1

theorem forall_dictInsert {P : PathC × SongHash → Prop} (m : List (PathC × SongHash))
    (k' : PathC) (v' : SongHash) (hm : ∀ x ∈ m, P x) (hv : P (k', v')) :
    ∀ x ∈ dictInsert m k' v', P x := by
  induction m with
  | nil =>
    intro x hx
    have : x = (k', v') := by simpa [dictInsert] using hx
    exact this ▸ hv
  | cons kv rest ih =>
    obtain ⟨a, w⟩ := kv
    have hm1 : P (a, w) := hm (a, w) (by simp)
    have hm2 : ∀ y ∈ rest, P y := fun y hy => hm y (List.mem_cons_of_mem _ hy)
    by_cases h : a = k'
    · subst h
      have hins : dictInsert ((a, w) :: rest) a v' = (a, v') :: rest := by
        simp [dictInsert]
      rw [hins]
      intro x hx
      rcases List.mem_cons.1 hx with h1 | h1
      · exact h1 ▸ hv
      · exact hm2 x h1
    · have hins : dictInsert ((a, w) :: rest) k' v' = (a, w) :: dictInsert rest k' v' := by
        simp [dictInsert, h]
      rw [hins]
      intro x hx
      rcases List.mem_cons.1 hx with h1 | h1
      · exact h1 ▸ hm1
      · exact ih hm2 x h1

theorem nodup_keys_insertAll (ps m : List (PathC × SongHash))
    (h : (m.map (·.1)).Nodup) : ((dictInsertAll m ps).map (·.1)).Nodup := by
  induction ps generalizing m with
  | nil => simpa [dictInsertAll] using h
  | cons kv rest ih =>
    have hstep : dictInsertAll m (kv :: rest) = dictInsertAll (dictInsert m kv.1 kv.2) rest := by
      simp [dictInsertAll]
    rw [hstep]
    exact ih _ (nodup_keys_dictInsert m kv.1 kv.2 h)

theorem forall_insertAll {P : PathC × SongHash → Prop} (ps m : List (PathC × SongHash))
    (hm : ∀ x ∈ m, P x) (hp : ∀ x ∈ ps, P x) :
    ∀ x ∈ dictInsertAll m ps, P x := by
  induction ps generalizing m with
  | nil => simpa [dictInsertAll] using hm
  | cons kv rest ih =>
    have hstep : dictInsertAll m (kv :: rest) = dictInsertAll (dictInsert m kv.1 kv.2) rest := by
      simp [dictInsertAll]
    rw [hstep]
    refine ih _ ?_ (fun y hy => hp y (List.mem_cons_of_mem _ hy))
    have hkv : P kv := hp kv (by simp)
    exact forall_dictInsert m kv.1 kv.2 hm (by simpa using hkv)

theorem dictGet_eq_some_mem {l : List (PathC × SongHash)} {k : PathC} {v : SongHash}
    (h : dictGet l k = some v) : (k, v) ∈ l := by
  induction l with
  | nil => simp [dictGet] at h
  | cons kv rest ih =>
    obtain ⟨a, w⟩ := kv
    by_cases hk : a = k
    · subst hk
      have hw : w = v := by simpa [dictGet] using h
      subst hw
      exact List.mem_cons_self _ _
    · have h' : dictGet rest k = some v := by simpa [dictGet, hk] using h
      exact List.mem_cons_of_mem _ (ih h')

theorem dictGet_eq_none_iff (l : List (PathC × SongHash)) (k : PathC) :
    dictGet l k = none ↔ k ∉ l.map (·.1) := by
  induction l with
  | nil => simp [dictGet]
  | cons kv rest ih =>
    obtain ⟨a, w⟩ := kv
    by_cases hk : a = k
    · subst hk
      simp [dictGet]
    · have hne : ¬ k = a := fun he => hk he.symm
      simp [dictGet, hk, ih, hne]

theorem mem_iff_dictGet {l : List (PathC × SongHash)} (hnd : (l.map (·.1)).Nodup)
    (k : PathC) (v : SongHash) : (k, v) ∈ l ↔ dictGet l k = some v := by
  induction l with
  | nil => simp [dictGet]
  | cons kv rest ih =>
    obtain ⟨a, w⟩ := kv
    simp only [List.map_cons, List.nodup_cons] at hnd
    by_cases hk : a = k
    · subst hk
      have hget : dictGet ((a, w) :: rest) a = some w := by simp [dictGet]
      rw [hget]
      constructor
      · intro h1
        rcases List.mem_cons.1 h1 with h2 | h2
        · have hv : v = w := by simpa using h2
          rw [hv]
        · exact absurd (by simpa using List.mem_map_of_mem (·.1) h2) hnd.1
      · intro h1
        have hv : w = v := by simpa using h1
        rw [← hv]
        exact List.mem_cons_self _ _
    · have hne : ¬ (k, v) = (a, w) := by
        intro he
        exact hk (congrArg Prod.fst he).symm
      simp only [dictGet, hk, if_neg, not_false_iff, List.mem_cons, hne, false_or]
      exact ih hnd.2

theorem dictGet_perm {l l' : List (PathC × SongHash)} (hp : l.Perm l')
    (hnd : (l.map (·.1)).Nodup) (k : PathC) : dictGet l k = dictGet l' k := by
  have hnd' : (l'.map (·.1)).Nodup := (hp.map (·.1)).nodup_iff.1 hnd
  cases hv : dictGet l k with
  | some v =>
    have : (k, v) ∈ l' := hp.mem_iff.1 (dictGet_eq_some_mem hv)
    exact ((mem_iff_dictGet hnd' k v).1 this).symm
  | none =>
    have : k ∉ l'.map (·.1) := fun h =>
      ((dictGet_eq_none_iff l k).1 hv) (((hp.map (·.1)).mem_iff).2 h)
    exact ((dictGet_eq_none_iff l' k).2 this).symm

/-! ### Decimal rendering round-trips -/

theorem digitChar_isDigit {d : Nat} (h : d < 10) : (digitChar d).isDigit = true := by
  interval_cases d <;> decide

theorem digitVal_digitChar {d : Nat} (h : d < 10) : digitVal (digitChar d) = d := by
  interval_cases d <;> decide

theorem isDigit_ne_minus {c : Char} (h : c.isDigit = true) : c ≠ '-' := by
  intro he
  subst he
  exact absurd h (by decide)

theorem isDigit_ne_plus {c : Char} (h : c.isDigit = true) : c ≠ '+' := by
  intro he
  subst he
  exact absurd h (by decide)

theorem ntcFuel_irrel : ∀ f g n, n < f → n < g → ntcFuel f n = ntcFuel g n := by
  intro f
  induction f with
  | zero => omega
  | succ f ih =>
    intro g n hf hg
    cases g with
    | zero => omega
    | succ g =>
      by_cases h10 : n < 10
      · simp [ntcFuel, h10]
      · simp only [ntcFuel, h10, if_false]
        rw [ih g (n / 10) (by omega) (by omega)]

theorem natChars_unfold {n : Nat} (h : ¬ n < 10) :
    natChars n = natChars (n / 10) ++ [digitChar (n % 10)] := by
  show ntcFuel (n + 1) n = _
  have : ntcFuel (n + 1) n = ntcFuel n (n / 10) ++ [digitChar (n % 10)] := by
    simp [ntcFuel, h]
  rw [this, ntcFuel_irrel n (n / 10 + 1) (n / 10) (by omega) (by omega)]
  rfl

theorem natChars_spec (n : Nat) :
    natChars n ≠ [] ∧ (∀ c ∈ natChars n, c.isDigit = true) ∧
      ∀ a : Nat, (natChars n).foldl (fun x c => 10 * x + digitVal c) a =
        a * 10 ^ (natChars n).length + n := by
  induction n using Nat.strong_induction_on with
  | _ n ih =>
    by_cases h10 : n < 10
    · have hnc : natChars n = [digitChar n] := by simp [natChars, ntcFuel, h10]
      refine ⟨by simp [hnc], ?_, ?_⟩
      · intro c hc
        rw [hnc] at hc
        simp only [List.mem_singleton] at hc
        exact hc ▸ digitChar_isDigit h10
      · intro a
        rw [hnc]
        simp only [List.foldl_cons, List.foldl_nil, List.length_singleton,
          digitVal_digitChar h10, pow_one]
        omega
    · have hnc := natChars_unfold h10
      obtain ⟨ihne, ihdig, ihfold⟩ := ih (n / 10) (by omega)
      refine ⟨by simp [hnc], ?_, ?_⟩
      · intro c hc
        rw [hnc] at hc
        rcases List.mem_append.1 hc with h | h
        · exact ihdig c h
        · simp only [List.mem_singleton] at h
          exact h ▸ digitChar_isDigit (by omega)
      · intro a
        rw [hnc, List.foldl_append]
        simp only [List.foldl_cons, List.foldl_nil, List.length_append,
          List.length_singleton, digitVal_digitChar (show n % 10 < 10 by omega)]
        rw [ihfold a, pow_succ]
        have hdm : 10 * (n / 10) + n % 10 = n := Nat.div_add_mod n 10
        set L := (natChars (n / 10)).length with hL
        have : a * 10 ^ L * 10 = 10 * (a * 10 ^ L) := by ring
        nlinarith [this, hdm]

theorem parseDigitsAux_digits :
    ∀ l : Chars, (∀ c ∈ l, c.isDigit = true) → ∀ acc : Nat,
      parseDigitsAux acc l = some (l.foldl (fun a c => 10 * a + digitVal c) acc) := by
  intro l
  induction l with
  | nil => intro _ acc; rfl
  | cons c rest ih =>
    intro h acc
    have hc : c.isDigit = true := h c (List.mem_cons_self _ _)
    simp only [parseDigitsAux, hc, if_true, List.foldl_cons]
    exact ih (fun g hg => h g (List.mem_cons_of_mem _ hg)) _

theorem parseNat_natChars (n : Nat) : parseNat (natChars n) = some n := by
  obtain ⟨hne, hdig, hfold⟩ := natChars_spec n
  cases hnc : natChars n with
  | nil => exact absurd hnc hne
  | cons c rest =>
    have hcd : c.isDigit = true := hdig c (hnc ▸ List.mem_cons_self c rest)
    have hdigr : ∀ g ∈ rest, g.isDigit = true := fun g hg =>
      hdig g (hnc ▸ List.mem_cons_of_mem c hg)
    have h0 : (natChars n).foldl (fun a c => 10 * a + digitVal c) 0 = n := by
      rw [hfold 0]
      simp
    rw [hnc] at h0
    simp only [List.foldl_cons] at h0
    simp only [parseNat, hcd, if_true]
    rw [parseDigitsAux_digits rest hdigr (digitVal c)]
    congr 1
    simpa using h0

/-! ### Splitting and joining lemmas -/

theorem splitChar_ne_nil (c : Char) (s : Chars) : splitChar c s ≠ [] := by
  cases s with
  | nil => simp [splitChar]
  | cons a rest =>
    cases h : splitChar c rest with
    | nil => simp [splitChar, h]
    | cons g gs =>
      by_cases hac : a = c <;> simp [splitChar, h, hac]

theorem splitChar_cons_self (c : Char) (rest : Chars) :
    splitChar c (c :: rest) = [] :: splitChar c rest := by
  cases h : splitChar c rest with
  | nil => exact absurd h (splitChar_ne_nil c rest)
  | cons g gs => simp [splitChar, h]

theorem splitChar_group (c : Char) (g rest : Chars) (hg : ∀ a ∈ g, a ≠ c)
    {hd : Chars} {tl : List Chars} (hs : splitChar c rest = hd :: tl) :
    splitChar c (g ++ rest) = (g ++ hd) :: tl := by
  induction g with
  | nil => simpa using hs
  | cons a g' ih =>
    have ha : a ≠ c := hg a (List.mem_cons_self a g')
    have hg' : ∀ x ∈ g', x ≠ c := fun x hx => hg x (List.mem_cons_of_mem _ hx)
    have ih' := ih hg'
    simp [splitChar, ih', ha]

theorem splitChar_joinChar (c : Char) (gs : List Chars) (hne : gs ≠ [])
    (hgs : ∀ g ∈ gs, ∀ a ∈ g, a ≠ c) : splitChar c (joinChar c gs) = gs := by
  induction gs with
  | nil => exact absurd rfl hne
  | cons g rest ih =>
    have hg : ∀ a ∈ g, a ≠ c := hgs g (List.mem_cons_self g rest)
    cases rest with
    | nil =>
      have hnil : splitChar c ([] : Chars) = [] :: [] := by simp [splitChar]
      have := splitChar_group c g [] hg hnil
      simpa [joinChar] using this
    | cons g2 rest2 =>
      have hjoin : joinChar c (g :: g2 :: rest2) = g ++ c :: joinChar c (g2 :: rest2) := rfl
      have ihr : splitChar c (joinChar c (g2 :: rest2)) = g2 :: rest2 :=
        ih (by simp) (fun x hx => hgs x (List.mem_cons_of_mem _ hx))
      have hsc : splitChar c (c :: joinChar c (g2 :: rest2)) = [] :: g2 :: rest2 := by
        rw [splitChar_cons_self, ihr]
      have := splitChar_group c g (c :: joinChar c (g2 :: rest2)) hg hsc
      simpa [hjoin] using this

theorem dropWhile_eq_self_of_head {l : Chars}
    (h : ∀ ch, l.head? = some ch → isWS ch = false) : l.dropWhile isWS = l := by
  cases l with
  | nil => rfl
  | cons a t =>
    have := h a rfl
    simp [List.dropWhile_cons, this]

theorem trimChars_eq_self {l : Chars} (hh : ∀ ch, l.head? = some ch → isWS ch = false)
    (hl : ∀ ch, l.getLast? = some ch → isWS ch = false) : trimChars l = l := by
  unfold trimChars
  rw [dropWhile_eq_self_of_head hh]
  rw [dropWhile_eq_self_of_head
    (fun ch hch => hl ch (by rwa [List.head?_reverse] at hch))]
  exact List.reverse_reverse l

theorem insertLe_perm (x : SongHash) (l : List SongHash) :
    (insertLe x l).Perm (x :: l) := by
  induction l with
  | nil => simp [insertLe]
  | cons y ys ih =>
    by_cases h : shLE x y
    · simp [insertLe, h]
    · simp only [insertLe, h, if_neg, not_false_iff, Bool.false_eq_true]
      exact (ih.cons y).trans (List.Perm.swap x y ys)

theorem sortHashes_perm (l : List SongHash) : (sortHashes l).Perm l := by
  induction l with
  | nil => simp [sortHashes]
  | cons a l ih =>
    have : sortHashes (a :: l) = insertLe a (sortHashes l) := rfl
    rw [this]
    exact (insertLe_perm a (sortHashes l)).trans (ih.cons a)

/-! ### Concrete objects used by the witnesses -/

def exBase : PathC := [['m']]

def exPA : PathC := [['a']]

def exPB : PathC := [['b']]

def exPC : PathC := [['c']]

def exHA : SongHash := ⟨exPA, ['x'], 5⟩

def exHB : SongHash := ⟨exPB, ['y'], 7⟩

def exDb : Database := ⟨exBase, [(exPA, exHA), (exPB, exHB)]⟩

/-! ### Claim C1 -/

/-- C1: for a file whose path lies under the database's base directory,
`is_newer_than_recorded` returns `true` iff no record exists for the file's
base-relative path or the file's modification time is strictly greater than
the stored record's timestamp; in particular, a file with an equal timestamp
is not stale (whatever the digests are). -/
theorem is_newer_than_recorded_spec (db : Database) (s : SongFileData) (rel : PathC)
    (h : relative_to s.path db.base_directory = some rel) :
    (db.is_newer_than_recorded s = some true ↔
      dictGet db.hashes rel = none ∨
        ∃ sh, dictGet db.hashes rel = some sh ∧ sh.timestamp_ns < s.timestamp_ns) ∧
    ∀ sh, dictGet db.hashes rel = some sh → sh.timestamp_ns = s.timestamp_ns →
      db.is_newer_than_recorded s = some false := by
  have hval : db.is_newer_than_recorded s =
      some (match dictGet db.hashes rel with
            | none => true
            | some h => decide (h.timestamp_ns < s.timestamp_ns)) := by
    unfold Database.is_newer_than_recorded
    rw [h]
    rfl
  constructor
  · cases hget : dictGet db.hashes rel with
    | none => simp [hval, hget]
    | some sh => simp [hval, hget]
  · intro sh hget hts
    rw [hval, hget]
    simp [hts]

/-- Witness for C1: in the concrete database, a file with a recorded path and
an unchanged timestamp is not stale. -/
theorem is_newer_than_recorded_spec_witness :
    exDb.is_newer_than_recorded ⟨exBase ++ exPA, 5⟩ = some false :=
  (is_newer_than_recorded_spec exDb ⟨exBase ++ exPA, 5⟩ exPA (by decide)).2
    exHA (by decide) (by decide)

/-! ### Claims C8 and C6: scan-level behaviour -/

theorem get_songs_to_update_nil (files : List SongFileData) (db : Database)
    (h : ∀ f ∈ files, db.is_newer_than_recorded f = some false) :
    get_songs_to_update files db = some [] := by
  induction files with
  | nil => rfl
  | cons f rest ih =>
    have hf := h f (List.mem_cons_self f rest)
    have ihr := ih (fun g hg => h g (List.mem_cons_of_mem _ hg))
    simp [get_songs_to_update, hf, ihr]

/-- C8: if a database exists on disk and its stored base directory differs
from the requested one, `scan` exits with status 1, emits the diagnostic on
standard error, runs zero hashes, and leaves the database file exactly as it
was. -/
theorem scan_mismatch_spec (hashFn : Chars → Chars) (read : SongFileData → Chars)
    (t : Chars) (db : Database) (base : PathC) (files : List SongFileData)
    (hload : load t = some db) (hne : db.base_directory ≠ base) :
    scan hashFn read (some t) base files = some ⟨some 1, some t, [], [cowardlyMsg]⟩ := by
  simp [scan, hload, hne]

/-- Witness for C8: a concrete scan against a database recorded for a
different directory refuses and leaves the file alone. -/
theorem scan_mismatch_spec_witness :
    scan id (fun _ => []) (some (['m'] ++ '\n' :: [])) [['o']] [] =
      some ⟨some 1, some (['m'] ++ '\n' :: []), [], [cowardlyMsg]⟩ :=
  scan_mismatch_spec id (fun _ => []) (['m'] ++ '\n' :: []) ⟨[['m']], []⟩ [['o']] []
    (by decide) (by decide)

/-- C6 (amended): a second scan over unchanged files against the database
file the first scan wrote — provided that file still parses back
(`load t = some db`) — selects an empty stale subset, performs zero hash
computations, and returns without rewriting the database file.  The
parsing proviso is necessary: the claim as stated is false of the program,
because `output` writes file names verbatim, so a scan over a file whose
name contains a tab (or newline, or carriage return) produces a database
file that `read_database` cannot parse, and the second scan raises
`ValueError` instead of being a no-op (see the counterexample below). -/
theorem scan_idempotent_spec (hashFn : Chars → Chars) (read : SongFileData → Chars)
    (t : Chars) (db : Database) (base : PathC) (files : List SongFileData)
    (hload : load t = some db) (hbase : db.base_directory = base)
    (hrec : ∀ f ∈ files, ∃ rel h, relative_to f.path base = some rel ∧
      dictGet db.hashes rel = some h ∧ h.timestamp_ns = f.timestamp_ns) :
    scan hashFn read (some t) base files = some ⟨none, some t, [], []⟩ := by
  subst hbase
  have hfalse : ∀ f ∈ files, db.is_newer_than_recorded f = some false := by
    intro f hf
    obtain ⟨rel, hh, hrel, hget, hts⟩ := hrec f hf
    unfold Database.is_newer_than_recorded
    rw [hrel]
    show some (match dictGet db.hashes rel with
               | none => true
               | some h => decide (h.timestamp_ns < f.timestamp_ns)) = some false
    rw [hget]
    simp [hts]
  have hstale := get_songs_to_update_nil files db hfalse
  simp [scan, hload, scanWith, hstale]

/-- Witness for C6: scanning the concrete database's own files again is a
no-op. -/
theorem scan_idempotent_spec_witness :
    scan id (fun _ => ['q']) (some (serialize exDb)) exBase
      [⟨exBase ++ exPA, 5⟩, ⟨exBase ++ exPB, 7⟩] =
      some ⟨none, some (serialize exDb), [], []⟩ := by
  refine scan_idempotent_spec id (fun _ => ['q']) (serialize exDb) exDb exBase
    [⟨exBase ++ exPA, 5⟩, ⟨exBase ++ exPB, 7⟩] (by decide) (by decide) ?_
  intro f hf
  rcases List.mem_cons.1 hf with h | h
  · exact ⟨exPA, exHA, by rw [h]; decide⟩
  · have h2 : f = ⟨exBase ++ exPB, 7⟩ := by simpa using h
    exact ⟨exPB, exHB, by rw [h2]; decide⟩

/-- The database state a first scan produces over the single file
`m/a<TAB>b` (modification time 5, digest `x`). -/
def cdbC6 : Database :=
  ⟨[['m']], [([['a', '\t', 'b']], ⟨[['a', '\t', 'b']], ['x'], 5⟩)]⟩

/-- Counterexample to C6 as stated: a first scan (no prior database file)
over the single file `m/a<TAB>b` succeeds and writes `serialize cdbC6`, a
database state produced by merging the scan's results in which the stored
timestamp equals the file's modification time; yet a second scan over the
same unchanged file raises (`read_database` hits a four-field line, so
`scan` returns `none`) instead of returning without rewriting the file. -/
theorem scan_idempotent_counterexample :
    scan id (fun _ => ['x']) none [['m']] [⟨[['m'], ['a', '\t', 'b']], 5⟩] =
      some ⟨none, some (serialize cdbC6), [⟨[['m'], ['a', '\t', 'b']], 5⟩], []⟩ ∧
    dictGet cdbC6.hashes [['a', '\t', 'b']] =
      some ⟨[['a', '\t', 'b']], ['x'], 5⟩ ∧
    scan id (fun _ => ['x']) (some (serialize cdbC6)) [['m']]
      [⟨[['m'], ['a', '\t', 'b']], 5⟩] = none := by
  decide

/-! ### Claims C3 and C10: update and the database invariant -/

theorem dictGet_isSome_iff (l : List (PathC × SongHash)) (k : PathC) :
    (dictGet l k).isSome = true ↔ k ∈ l.map (·.1) := by
  cases h : dictGet l k with
  | none =>
    simp only [Option.isSome_none, Bool.false_eq_true, false_iff]
    exact (dictGet_eq_none_iff l k).1 h
  | some v =>
    simp only [Option.isSome_some, true_iff]
    exact List.mem_map_of_mem (·.1) (dictGet_eq_some_mem h)

theorem dictGet_eq_of_all (l : List (PathC × SongHash)) (k : PathC) (v : SongHash)
    (hex : k ∈ l.map (·.1)) (hall : ∀ kv ∈ l, kv.1 = k → kv = (k, v)) :
    dictGet l k = some v := by
  induction l with
  | nil => simp at hex
  | cons kv rest ih =>
    obtain ⟨a, w⟩ := kv
    by_cases hk : a = k
    · have := hall (a, w) (List.mem_cons_self _ _) hk
      simp only [Prod.mk.injEq] at this
      have hw : w = v := this.2
      subst hk
      subst hw
      simp [dictGet]
    · have hex' : k ∈ rest.map (·.1) := by
        simp only [List.map_cons, List.mem_cons] at hex
        rcases hex with h | h
        · exact absurd h.symm hk
        · exact h
      have := ih hex' (fun kv hkv => hall kv (List.mem_cons_of_mem _ hkv))
      simpa [dictGet, hk] using this

theorem relPair_eq_some {base : PathC} {s : SongHash} {rel : PathC}
    (h : relative_to s.path base = some rel) :
    relPair base s = some (rel, { s with path := rel }) := by
  simp [relPair, h]

theorem relPairs_eq_some (base : PathC) :
    ∀ new : List SongHash, (∀ s ∈ new, (relative_to s.path base).isSome = true) →
      ∃ ps, relPairs base new = some ps := by
  intro new
  induction new with
  | nil => exact fun _ => ⟨[], rfl⟩
  | cons s rest ih =>
    intro h
    obtain ⟨ps', hps'⟩ := ih (fun g hg => h g (List.mem_cons_of_mem _ hg))
    cases hrel : relative_to s.path base with
    | none =>
      have := h s (List.mem_cons_self _ _)
      rw [hrel] at this
      simp at this
    | some rel =>
      exact ⟨(rel, { s with path := rel }) :: ps', by
        simp [relPairs, relPair_eq_some hrel, hps']⟩

theorem relPairs_mem_right (base : PathC) :
    ∀ (new : List SongHash) (ps : List (PathC × SongHash)),
      relPairs base new = some ps → ∀ kv ∈ ps,
        ∃ s ∈ new, relative_to s.path base = some kv.1 ∧ kv.2 = { s with path := kv.1 } := by
  intro new
  induction new with
  | nil =>
    intro ps hps kv hkv
    simp only [relPairs, Option.some.injEq] at hps
    subst hps
    simp at hkv
  | cons s rest ih =>
    intro ps hps kv hkv
    cases hrel : relPair base s with
    | none => simp [relPairs, hrel] at hps
    | some kv0 =>
      cases hrest : relPairs base rest with
      | none => simp [relPairs, hrel, hrest] at hps
      | some ps' =>
        have hps' : ps = kv0 :: ps' := by
          have := hps
          simp only [relPairs, hrel, hrest, Option.some.injEq] at this
          exact this.symm
        subst hps'
        rcases List.mem_cons.1 hkv with h | h
        · cases hrel2 : relative_to s.path base with
          | none => simp [relPair, hrel2] at hrel
          | some rel =>
            have hkv0 : kv0 = (rel, { s with path := rel }) := by
              have h2 := hrel
              rw [relPair_eq_some hrel2] at h2
              exact (Option.some.inj h2).symm
            subst h
            subst hkv0
            exact ⟨s, List.mem_cons_self _ _, hrel2, rfl⟩
        · obtain ⟨s', hs', hrel', hv'⟩ := ih ps' hrest kv h
          exact ⟨s', List.mem_cons_of_mem _ hs', hrel', hv'⟩

theorem relPairs_mem_left (base : PathC) :
    ∀ (new : List SongHash) (ps : List (PathC × SongHash)),
      relPairs base new = some ps → ∀ s ∈ new, ∀ rel,
        relative_to s.path base = some rel → (rel, { s with path := rel }) ∈ ps := by
  intro new
  induction new with
  | nil =>
    intro ps _ s hs
    simp at hs
  | cons s0 rest ih =>
    intro ps hps s hs rel hrel
    cases hrel0 : relPair base s0 with
    | none => simp [relPairs, hrel0] at hps
    | some kv0 =>
      cases hrest : relPairs base rest with
      | none => simp [relPairs, hrel0, hrest] at hps
      | some ps' =>
        have hps' : ps = kv0 :: ps' := by
          have := hps
          simp only [relPairs, hrel0, hrest, Option.some.injEq] at this
          exact this.symm
        subst hps'
        rcases List.mem_cons.1 hs with h | h
        · subst h
          rw [relPair_eq_some hrel] at hrel0
          have h2 := Option.some.inj hrel0
          exact h2 ▸ List.mem_cons_self _ _
        · exact List.mem_cons_of_mem _ (ih ps' hrest s h rel hrel)

/-- C3: `update` with records whose paths lie under the base directory
inserts or replaces each given record under its base-relative path and
leaves every record at any other path exactly unchanged. -/
theorem update_spec (db : Database) (new_hashes : List SongHash)
    (hunder : ∀ s ∈ new_hashes, (relative_to s.path db.base_directory).isSome = true) :
    ∃ db', db.update new_hashes = some db' ∧
      db'.base_directory = db.base_directory ∧
      (∀ p : PathC, (∀ s ∈ new_hashes, relative_to s.path db.base_directory ≠ some p) →
        dictGet db'.hashes p = dictGet db.hashes p) ∧
      (∀ s ∈ new_hashes, ∀ rel, relative_to s.path db.base_directory = some rel →
        ∃ s', s' ∈ new_hashes ∧ relative_to s'.path db.base_directory = some rel ∧
          dictGet db'.hashes rel = some { s' with path := rel }) ∧
      (∀ s ∈ new_hashes, ∀ rel, relative_to s.path db.base_directory = some rel →
        (∀ s', s' ∈ new_hashes → relative_to s'.path db.base_directory = some rel → s' = s) →
        dictGet db'.hashes rel = some { s with path := rel }) := by
  obtain ⟨ps, hps⟩ := relPairs_eq_some db.base_directory new_hashes hunder
  have hdb' : db.update new_hashes =
      some { db with hashes := dictInsertAll db.hashes ps } := by
    unfold Database.update
    rw [hps]
    rfl
  refine ⟨_, hdb', rfl, ?_, ?_, ?_⟩
  · intro p hnone
    show dictGet (dictInsertAll db.hashes ps) p = dictGet db.hashes p
    rw [dictGet_insertAll]
    have : dictGet ps.reverse p = none := by
      rw [dictGet_eq_none_iff]
      intro hmem
      obtain ⟨kv, hkv, hk⟩ := List.mem_map.1 hmem
      obtain ⟨s, hs, hrel, -⟩ :=
        relPairs_mem_right db.base_directory new_hashes ps hps kv
          (List.mem_reverse.1 hkv)
      exact hnone s hs (hk ▸ hrel)
    rw [this]
    rfl
  · intro s hs rel hrel
    have hmem : (rel, { s with path := rel }) ∈ ps :=
      relPairs_mem_left db.base_directory new_hashes ps hps s hs rel hrel
    have hsome : (dictGet ps.reverse rel).isSome = true := by
      rw [dictGet_isSome_iff]
      exact List.mem_map_of_mem (·.1) (List.mem_reverse.2 hmem)
    cases hv : dictGet ps.reverse rel with
    | none => rw [hv] at hsome; simp at hsome
    | some v =>
      obtain ⟨s', hs', hrel', hv'⟩ :=
        relPairs_mem_right db.base_directory new_hashes ps hps (rel, v)
          (List.mem_reverse.1 (dictGet_eq_some_mem hv))
      simp only at hrel' hv'
      refine ⟨s', hs', hrel', ?_⟩
      show dictGet (dictInsertAll db.hashes ps) rel = some { s' with path := rel }
      rw [dictGet_insertAll, hv]
      simp only [oOr]
      rw [hv']
  · intro s hs rel hrel huniq
    have hmem : (rel, { s with path := rel }) ∈ ps :=
      relPairs_mem_left db.base_directory new_hashes ps hps s hs rel hrel
    have hall : ∀ kv ∈ ps.reverse, kv.1 = rel → kv = (rel, { s with path := rel }) := by
      intro kv hkv hk
      obtain ⟨s', hs', hrel', hv'⟩ :=
        relPairs_mem_right db.base_directory new_hashes ps hps kv
          (List.mem_reverse.1 hkv)
      have hss : s' = s := huniq s' hs' (hk ▸ hrel')
      subst hss
      obtain ⟨k1, v1⟩ := kv
      simp only at hk hv'
      rw [hk] at hv' ⊢
      rw [hv']
    have hget : dictGet ps.reverse rel = some { s with path := rel } :=
      dictGet_eq_of_all ps.reverse rel _
        (List.mem_map_of_mem (·.1) (List.mem_reverse.2 hmem)) hall
    show dictGet (dictInsertAll db.hashes ps) rel = some { s with path := rel }
    rw [dictGet_insertAll, hget]
    rfl

/-- Witness for C3: the spec's own example — a database holding records for
paths A and B, updated with records B' and C, afterwards holds exactly
A, B' and C. -/
theorem update_spec_witness :
    ∃ db', exDb.update [⟨exBase ++ exPB, ['Y'], 9⟩, ⟨exBase ++ exPC, ['z'], 3⟩] = some db' ∧
      dictGet db'.hashes exPA = some exHA ∧
      dictGet db'.hashes exPB = some ⟨exPB, ['Y'], 9⟩ ∧
      dictGet db'.hashes exPC = some ⟨exPC, ['z'], 3⟩ := by
  obtain ⟨db', hup, -, huntouched, -, huniq⟩ :=
    update_spec exDb [⟨exBase ++ exPB, ['Y'], 9⟩, ⟨exBase ++ exPC, ['z'], 3⟩] (by decide)
  refine ⟨db', hup, ?_, ?_, ?_⟩
  · rw [huntouched exPA (by decide)]
    decide
  · have := huniq ⟨exBase ++ exPB, ['Y'], 9⟩ (by simp) exPB (by decide) (by decide)
    simpa using this
  · have := huniq ⟨exBase ++ exPC, ['z'], 3⟩ (by simp) exPC (by decide) (by decide)
    simpa using this

/-- The data-model invariant: every record's stored path equals its mapping
key, and no two records share a key. -/
def DbInv (db : Database) : Prop :=
  (∀ kv ∈ db.hashes, kv.2.path = kv.1) ∧ (db.hashes.map (·.1)).Nodup

theorem parseLine_inv {l : Chars} {kv : PathC × SongHash}
    (h : parseLine l = some kv) : kv.2.path = kv.1 := by
  unfold parseLine at h
  rcases hsp : splitChar '\t' l with _ | ⟨file, _ | ⟨sha, _ | ⟨ts, _ | _⟩⟩⟩ <;>
    rw [hsp] at h <;> simp at h
  cases hts : parseInt ts with
  | none => rw [hts] at h; simp at h
  | some n =>
    rw [hts] at h
    simp at h
    rw [← h]

theorem parseLines_inv :
    ∀ (ls : List Chars) (ps : List (PathC × SongHash)), parseLines ls = some ps →
      ∀ kv ∈ ps, kv.2.path = kv.1 := by
  intro ls
  induction ls with
  | nil =>
    intro ps hps kv hkv
    have : ps = [] := (Option.some.inj hps).symm
    subst this
    simp at hkv
  | cons l rest ih =>
    intro ps hps kv hkv
    cases hl : parseLine l with
    | none => simp [parseLines, hl] at hps
    | some kv0 =>
      cases hrest : parseLines rest with
      | none => simp [parseLines, hl, hrest] at hps
      | some ps' =>
        have hps' : ps = kv0 :: ps' := by
          have h2 := hps
          simp only [parseLines, hl, hrest, Option.some.injEq] at h2
          exact h2.symm
        subst hps'
        rcases List.mem_cons.1 hkv with h | h
        · exact h ▸ parseLine_inv hl
        · exact ih ps' hrest kv h

theorem load_eq_some {t : Chars} {db : Database} (h : load t = some db) :
    ∃ header rest pairs, readLines t = header :: rest ∧ parseLines rest = some pairs ∧
      db = ⟨parsePath header, dictInsertAll [] pairs⟩ := by
  unfold load at h
  cases hr : readLines t with
  | nil => rw [hr] at h; simp at h
  | cons header rest =>
    rw [hr] at h
    obtain ⟨pairs, hp, hdb⟩ := Option.map_eq_some'.1 h
    exact ⟨header, rest, pairs, rfl, hp, hdb.symm⟩

/-- C10: every database built by `read_database` satisfies the invariant
that each record's stored path equals its mapping key and keys are unique,
and `update` preserves that invariant. -/
theorem database_invariant :
    (∀ (t : Chars) (db : Database), load t = some db → DbInv db) ∧
    (∀ (db : Database) (new_hashes : List SongHash) (db' : Database), DbInv db →
      db.update new_hashes = some db' → DbInv db') := by
  constructor
  · intro t db h
    obtain ⟨header, rest, pairs, -, hp, hdb⟩ := load_eq_some h
    subst hdb
    constructor
    · exact forall_insertAll pairs [] (by simp) (parseLines_inv rest pairs hp)
    · exact nodup_keys_insertAll pairs [] (by simp)
  · intro db new_hashes db' hinv hup
    cases hps : relPairs db.base_directory new_hashes with
    | none => simp [Database.update, hps] at hup
    | some ps =>
      have hdb' : db' = { db with hashes := dictInsertAll db.hashes ps } := by
        have h2 := hup
        simp only [Database.update, hps, Option.map_some] at h2
        exact (Option.some.inj h2).symm
      subst hdb'
      constructor
      · refine forall_insertAll ps db.hashes hinv.1 ?_
        intro kv hkv
        obtain ⟨s, -, -, hv⟩ :=
          relPairs_mem_right db.base_directory new_hashes ps hps kv hkv
        rw [hv]
      · exact nodup_keys_insertAll ps db.hashes hinv.2

/-- Witness for C10: the invariant holds for a concretely loaded database
and is kept by a concrete update. -/
theorem database_invariant_witness :
    DbInv ⟨[['m']], [([['a']], ⟨[['a']], ['x'], 5⟩)]⟩ ∧
    DbInv ⟨[['m']], [([['a']], ⟨[['a']], ['w'], 9⟩)]⟩ := by
  constructor
  · exact database_invariant.1 ("m\na\tx\t5\n".toList)
      ⟨[['m']], [([['a']], ⟨[['a']], ['x'], 5⟩)]⟩ (by decide)
  · exact database_invariant.2 ⟨[['m']], [([['a']], ⟨[['a']], ['x'], 5⟩)]⟩
      [⟨[['m'], ['a']], ['w'], 9⟩] ⟨[['m']], [([['a']], ⟨[['a']], ['w'], 9⟩)]⟩
      ⟨by decide, by decide⟩ (by decide)

/-! ### Claim C2: diff classification -/

theorem diffOld_spec (newer : Database) :
    ∀ olds : List (PathC × SongHash),
      (∀ kv ∈ olds, kv.2.path = kv.1) →
      ∃ r m, diffOld newer olds = some (r, m) ∧
        (∀ p, p ∈ r ↔ ∃ sh, (p, sh) ∈ olds ∧ dictGet newer.hashes p = none) ∧
        (∀ p, p ∈ m ↔ ∃ sh h2, (p, sh) ∈ olds ∧ dictGet newer.hashes p = some h2 ∧
          ¬ h2.sha256 = sh.sha256) := by
  intro olds
  induction olds with
  | nil =>
    intro _
    exact ⟨[], [], rfl, by simp, by simp⟩
  | cons kv rest ih =>
    intro hinv
    obtain ⟨a, sh⟩ := kv
    have hinva : sh.path = a := hinv (a, sh) (List.mem_cons_self _ _)
    obtain ⟨r, m, hrm, hrspec, hmspec⟩ :=
      ih (fun kv hkv => hinv kv (List.mem_cons_of_mem _ hkv))
    cases hJ : dictGet newer.hashes a with
    | none =>
      have hstep : diffOld newer ((a, sh) :: rest) = some (a :: r, m) := by
        simp [diffOld, hJ, hrm]
      refine ⟨a :: r, m, hstep, ?_, ?_⟩
      · intro p
        constructor
        · intro hp
          rcases List.mem_cons.1 hp with h | h
          · exact ⟨sh, by simp [h], h ▸ hJ⟩
          · obtain ⟨sh', hmem, hnone⟩ := (hrspec p).1 h
            exact ⟨sh', List.mem_cons_of_mem _ hmem, hnone⟩
        · rintro ⟨sh', hmem, hnone⟩
          rcases List.mem_cons.1 hmem with h | h
          · have hpa : p = a := by
              simpa using congrArg Prod.fst h
            exact hpa ▸ List.mem_cons_self _ _
          · exact List.mem_cons_of_mem _ ((hrspec p).2 ⟨sh', h, hnone⟩)
      · intro p
        rw [hmspec p]
        constructor
        · rintro ⟨sh', h2, hmem, hsome, hne⟩
          exact ⟨sh', h2, List.mem_cons_of_mem _ hmem, hsome, hne⟩
        · rintro ⟨sh', h2, hmem, hsome, hne⟩
          rcases List.mem_cons.1 hmem with h | h
          · have hpa : p = a := by simpa using congrArg Prod.fst h
            rw [hpa, hJ] at hsome
            exact absurd hsome (by simp)
          · exact ⟨sh', h2, h, hsome, hne⟩
    | some h2 =>
      have hmatch : newer.matches_recorded_hash sh =
          some (decide (h2.sha256 = sh.sha256)) := by
        unfold Database.matches_recorded_hash
        rw [hinva, hJ]
        rfl
      by_cases heq : h2.sha256 = sh.sha256
      · have hstep : diffOld newer ((a, sh) :: rest) = some (r, m) := by
          simp [diffOld, hJ, hmatch, heq, hrm]
        refine ⟨r, m, hstep, ?_, ?_⟩
        · intro p
          rw [hrspec p]
          constructor
          · rintro ⟨sh', hmem, hnone⟩
            exact ⟨sh', List.mem_cons_of_mem _ hmem, hnone⟩
          · rintro ⟨sh', hmem, hnone⟩
            rcases List.mem_cons.1 hmem with h | h
            · have hpa : p = a := by simpa using congrArg Prod.fst h
              rw [hpa, hJ] at hnone
              exact absurd hnone (by simp)
            · exact ⟨sh', h, hnone⟩
        · intro p
          rw [hmspec p]
          constructor
          · rintro ⟨sh', h2', hmem, hsome, hne⟩
            exact ⟨sh', h2', List.mem_cons_of_mem _ hmem, hsome, hne⟩
          · rintro ⟨sh', h2', hmem, hsome, hne⟩
            rcases List.mem_cons.1 hmem with h | h
            · have hpa : p = a := by simpa using congrArg Prod.fst h
              have hsh : sh' = sh := by simpa using congrArg Prod.snd h
              rw [hpa, hJ] at hsome
              have hh2 : h2 = h2' := Option.some.inj hsome
              rw [← hh2, hsh] at hne
              exact absurd heq hne
            · exact ⟨sh', h2', h, hsome, hne⟩
      · have hstep : diffOld newer ((a, sh) :: rest) = some (r, a :: m) := by
          simp [diffOld, hJ, hmatch, heq, hrm]
        refine ⟨r, a :: m, hstep, ?_, ?_⟩
        · intro p
          rw [hrspec p]
          constructor
          · rintro ⟨sh', hmem, hnone⟩
            exact ⟨sh', List.mem_cons_of_mem _ hmem, hnone⟩
          · rintro ⟨sh', hmem, hnone⟩
            rcases List.mem_cons.1 hmem with h | h
            · have hpa : p = a := by simpa using congrArg Prod.fst h
              rw [hpa, hJ] at hnone
              exact absurd hnone (by simp)
            · exact ⟨sh', h, hnone⟩
        · intro p
          constructor
          · intro hp
            rcases List.mem_cons.1 hp with h | h
            · subst h
              exact ⟨sh, h2, List.mem_cons_self _ _, hJ, heq⟩
            · obtain ⟨sh', h2', hmem, hsome, hne⟩ := (hmspec p).1 h
              exact ⟨sh', h2', List.mem_cons_of_mem _ hmem, hsome, hne⟩
          · rintro ⟨sh', h2', hmem, hsome, hne⟩
            rcases List.mem_cons.1 hmem with h | h
            · have hpa : p = a := by simpa using congrArg Prod.fst h
              exact hpa ▸ List.mem_cons_self _ _
            · exact List.mem_cons_of_mem _ ((hmspec p).2 ⟨sh', h2', h, hsome, hne⟩)

theorem diffAdded_spec (older newer : Database) (p : PathC) :
    p ∈ diffAdded older newer ↔
      dictGet older.hashes p = none ∧ p ∈ newer.hashes.map (·.1) := by
  unfold diffAdded
  simp only [List.mem_map, List.mem_filter]
  constructor
  · rintro ⟨kv, ⟨hmem, hflt⟩, hp⟩
    subst hp
    exact ⟨by simpa [Option.isNone_iff_eq_none] using hflt, kv, hmem, rfl⟩
  · rintro ⟨ho, kv, hkv, hp⟩
    exact ⟨kv, ⟨hkv, by simp [Option.isNone_iff_eq_none, hp, ho]⟩, hp⟩

/-- C2: `diff_databases` classifies every path exactly: present only in the
older database is `removed`, present in both with differing stored digests is
`modified`, present only in the newer is `added`; a path with identical
digests in both (whatever the timestamps) lands in none of the sets, and no
path lands in more than one set.  The hypotheses are the data-model
invariants that every database the program builds satisfies. -/
theorem diff_databases_spec (older newer : Database)
    (hinvO : ∀ kv ∈ older.hashes, kv.2.path = kv.1)
    (hndO : (older.hashes.map (·.1)).Nodup) :
    ∃ d, diff_databases older newer = some d ∧
      (∀ p, p ∈ d.removed ↔
        (∃ sh, dictGet older.hashes p = some sh) ∧ dictGet newer.hashes p = none) ∧
      (∀ p, p ∈ d.modified ↔ ∃ sh1 sh2, dictGet older.hashes p = some sh1 ∧
        dictGet newer.hashes p = some sh2 ∧ sh1.sha256 ≠ sh2.sha256) ∧
      (∀ p, p ∈ d.added ↔
        dictGet older.hashes p = none ∧ ∃ sh, dictGet newer.hashes p = some sh) ∧
      (∀ p sh1 sh2, dictGet older.hashes p = some sh1 →
        dictGet newer.hashes p = some sh2 → sh1.sha256 = sh2.sha256 →
        p ∉ d.added ∧ p ∉ d.removed ∧ p ∉ d.modified) ∧
      (∀ p, (p ∈ d.removed → p ∉ d.modified ∧ p ∉ d.added) ∧
        (p ∈ d.modified → p ∉ d.added)) := by
  obtain ⟨r, m, hrm, hrspec, hmspec⟩ := diffOld_spec newer older.hashes hinvO
  have hd : diff_databases older newer = some ⟨diffAdded older newer, r, m⟩ := by
    unfold diff_databases
    rw [hrm]
    rfl
  have hrem : ∀ p, p ∈ r ↔
      (∃ sh, dictGet older.hashes p = some sh) ∧ dictGet newer.hashes p = none := by
    intro p
    rw [hrspec p]
    constructor
    · rintro ⟨sh, hmem, hnone⟩
      exact ⟨⟨sh, (mem_iff_dictGet hndO p sh).1 hmem⟩, hnone⟩
    · rintro ⟨⟨sh, hget⟩, hnone⟩
      exact ⟨sh, (mem_iff_dictGet hndO p sh).2 hget, hnone⟩
  have hmod : ∀ p, p ∈ m ↔ ∃ sh1 sh2, dictGet older.hashes p = some sh1 ∧
      dictGet newer.hashes p = some sh2 ∧ sh1.sha256 ≠ sh2.sha256 := by
    intro p
    rw [hmspec p]
    constructor
    · rintro ⟨sh, h2, hmem, hsome, hne⟩
      exact ⟨sh, h2, (mem_iff_dictGet hndO p sh).1 hmem, hsome, fun he => hne he.symm⟩
    · rintro ⟨sh1, sh2, hget, hsome, hne⟩
      exact ⟨sh1, sh2, (mem_iff_dictGet hndO p sh1).2 hget, hsome, fun he => hne he.symm⟩
  have hadd : ∀ p, p ∈ diffAdded older newer ↔
      dictGet older.hashes p = none ∧ ∃ sh, dictGet newer.hashes p = some sh := by
    intro p
    rw [diffAdded_spec older newer p]
    constructor
    · rintro ⟨ho, hmem⟩
      refine ⟨ho, ?_⟩
      have := (dictGet_isSome_iff newer.hashes p).2 hmem
      cases hv : dictGet newer.hashes p with
      | none => rw [hv] at this; simp at this
      | some v => exact ⟨v, rfl⟩
    · rintro ⟨ho, sh, hget⟩
      exact ⟨ho, List.mem_map_of_mem (·.1) (dictGet_eq_some_mem hget)⟩
  refine ⟨⟨diffAdded older newer, r, m⟩, hd, hrem, hmod, hadd, ?_, ?_⟩
  · intro p sh1 sh2 hget1 hget2 hsha
    refine ⟨?_, ?_, ?_⟩
    · intro hp
      obtain ⟨ho, -⟩ := (hadd p).1 hp
      rw [hget1] at ho
      exact absurd ho (by simp)
    · intro hp
      obtain ⟨-, hnone⟩ := (hrem p).1 hp
      rw [hget2] at hnone
      exact absurd hnone (by simp)
    · intro hp
      obtain ⟨sh1', sh2', hget1', hget2', hne⟩ := (hmod p).1 hp
      rw [hget1] at hget1'
      rw [hget2] at hget2'
      rw [← Option.some.inj hget1', ← Option.some.inj hget2'] at hne
      exact hne hsha
  · intro p
    constructor
    · intro hp
      obtain ⟨⟨sh, hget⟩, hnone⟩ := (hrem p).1 hp
      constructor
      · intro hp2
        obtain ⟨-, sh2, -, hsome, -⟩ := (hmod p).1 hp2
        rw [hnone] at hsome
        exact absurd hsome (by simp)
      · intro hp2
        obtain ⟨ho, -⟩ := (hadd p).1 hp2
        rw [hget] at ho
        exact absurd ho (by simp)
    · intro hp
      obtain ⟨sh1, sh2, hget1, -, -⟩ := (hmod p).1 hp
      intro hp2
      obtain ⟨ho, -⟩ := (hadd p).1 hp2
      rw [hget1] at ho
      exact absurd ho (by simp)

/-- Witness for C2: a concrete pair of databases with one removed, one
modified, one unchanged, and one added path is classified exactly. -/
theorem diff_databases_spec_witness :
    ∃ d, diff_databases exDb
        ⟨exBase, [(exPB, ⟨exPB, ['Y'], 8⟩), (exPC, ⟨exPC, ['z'], 3⟩)]⟩ = some d ∧
      exPA ∈ d.removed ∧ exPB ∈ d.modified ∧ exPC ∈ d.added ∧ exPB ∉ d.added := by
  obtain ⟨d, hd, hrem, hmod, hadd, -, -⟩ :=
    diff_databases_spec exDb ⟨exBase, [(exPB, ⟨exPB, ['Y'], 8⟩), (exPC, ⟨exPC, ['z'], 3⟩)]⟩
      (by decide) (by decide)
  refine ⟨d, hd, ?_, ?_, ?_, ?_⟩
  · exact (hrem exPA).2 (by refine ⟨⟨exHA, ?_⟩, ?_⟩ <;> decide)
  · exact (hmod exPB).2 ⟨exHB, ⟨exPB, ['Y'], 8⟩, by decide, by decide, by decide⟩
  · exact (hadd exPC).2 ⟨by decide, ⟨exPC, ['z'], 3⟩, by decide⟩
  · intro hp
    obtain ⟨ho, -⟩ := (hadd exPB).1 hp
    exact absurd ho (by decide)

/-! ### Claim C7: parse success and failure -/

/-- A well-formed database line: exactly three tab-separated fields whose
third field parses as an integer. -/
def goodLine (l : Chars) : Bool :=
  match splitChar '\t' l with
  | [_, _, ts] => (parseInt ts).isSome
  | _ => false

theorem parseLine_isSome_iff (l : Chars) : (parseLine l).isSome = goodLine l := by
  unfold parseLine goodLine
  rcases hsp : splitChar '\t' l with _ | ⟨a, _ | ⟨b, _ | ⟨c, _ | d⟩⟩⟩ <;> simp

theorem parseLines_some_of_good :
    ∀ ls : List Chars, (∀ l ∈ ls, goodLine l = true) →
      ∃ ps, parseLines ls = some ps := by
  intro ls
  induction ls with
  | nil => exact fun _ => ⟨[], rfl⟩
  | cons l rest ih =>
    intro h
    have hl : (parseLine l).isSome = true := by
      rw [parseLine_isSome_iff]
      exact h l (List.mem_cons_self _ _)
    obtain ⟨ps', hps'⟩ := ih (fun g hg => h g (List.mem_cons_of_mem _ hg))
    cases hpl : parseLine l with
    | none => rw [hpl] at hl; simp at hl
    | some kv => exact ⟨kv :: ps', by simp [parseLines, hpl, hps']⟩

theorem parseLines_none_of_bad :
    ∀ ls : List Chars, (∃ l ∈ ls, goodLine l = false) → parseLines ls = none := by
  intro ls
  induction ls with
  | nil => rintro ⟨l, hl, -⟩; simp at hl
  | cons l rest ih =>
    rintro ⟨g, hg, hbad⟩
    rcases List.mem_cons.1 hg with h | h
    · have hl : parseLine g = none := by
        have := parseLine_isSome_iff g
        rw [hbad] at this
        exact Option.not_isSome_iff_eq_none.1 (by simp [this])
      subst h
      simp [parseLines, hl]
    · have hrest : parseLines rest = none := ih ⟨g, h, hbad⟩
      cases hpl : parseLine l with
      | none => simp [parseLines, hpl]
      | some kv => simp [parseLines, hpl, hrest]

/-- C7: on an ASCII text whose first line is the base directory,
`read_database` succeeds — yielding the database whose base is the first
line and whose records come from the remaining lines — exactly when every
remaining line has three tab-separated fields with an integer third field;
if any line is malformed it raises (no partially loaded database is
returned).  Lines are those of text-mode reading: `\r\n` and lone `\r`
count as line breaks, each line is stripped of surrounding whitespace, and
the third field is an integer in the sense of Python's `int` (surrounding
whitespace, an optional sign, and `_` separators between digits are
allowed).  The theorem is stated for ASCII texts, the fragment on which
this character-level embedding of `str.strip` and `int` is exact; outside
ASCII, Python additionally treats some further code points as whitespace
or digits. -/
theorem read_database_lines_spec (text : Chars) (header : Chars) (rest : List Chars)
    (_hascii : ∀ c ∈ text, c.toNat < 128)
    (hlines : readLines text = header :: rest) :
    ((∀ l ∈ rest, goodLine l = true) →
      ∃ db ps, load text = some db ∧ parseLines rest = some ps ∧
        db = ⟨parsePath header, dictInsertAll [] ps⟩) ∧
    ((∃ l ∈ rest, goodLine l = false) → load text = none) := by
  constructor
  · intro hgood
    obtain ⟨ps, hps⟩ := parseLines_some_of_good rest hgood
    refine ⟨⟨parsePath header, dictInsertAll [] ps⟩, ps, ?_, hps, rfl⟩
    unfold load
    rw [hlines]
    show Option.map (fun pairs => (⟨parsePath header, dictInsertAll [] pairs⟩ : Database))
      (parseLines rest) = some ⟨parsePath header, dictInsertAll [] ps⟩
    rw [hps]
    rfl
  · intro hbad
    unfold load
    rw [hlines]
    show Option.map (fun pairs => (⟨parsePath header, dictInsertAll [] pairs⟩ : Database))
      (parseLines rest) = none
    rw [parseLines_none_of_bad rest hbad]
    rfl

/-- Witness for C7: a concrete well-formed text loads, and a concrete text
with a two-field line fails. -/
theorem read_database_lines_spec_witness :
    (∃ db ps, load ("m\na\tx\t5\n".toList) = some db ∧
      parseLines ["a\tx\t5".toList] = some ps ∧
      db = ⟨parsePath ("m".toList), dictInsertAll [] ps⟩) ∧
    load ("m\na\tx\n".toList) = none :=
  ⟨(read_database_lines_spec ("m\na\tx\t5\n".toList) ("m".toList) ["a\tx\t5".toList]
      (by decide) (by decide)).1 (by decide),
   (read_database_lines_spec ("m\na\tx\n".toList) ("m".toList) ["a\tx".toList]
      (by decide) (by decide)).2 (by decide)⟩

/-! ### Claim C4: serialize/load round trip

The round trip fails on databases whose fields contain characters the file
format or text-mode reading treats specially: a tab splits the line into
extra fields, a newline or carriage return breaks the line (reading uses
universal newlines), and whitespace at a line boundary is stripped; the
counterexample below shows the tab case.  It holds for every database
whose fields are benign in the sense of `DbWF`: ASCII and free of the
delimiter characters, with no strippable whitespace at the line
boundaries. -/

/-- A character that passes through one serialized line and back untouched:
ASCII (the fragment on which the model's text handling is exact) and none
of the delimiters `'\n'`, `'\t'`, `'\r'`, `'/'`. -/
def charOK (c : Char) : Prop :=
  c.toNat < 128 ∧ c ≠ '\n' ∧ c ≠ '\t' ∧ c ≠ '\r' ∧ c ≠ '/'

/-- A path component as Python's `Path` would produce it, containing only
benign characters. -/
def compWF (comp : Chars) : Prop :=
  comp ≠ [] ∧ comp ≠ ['.'] ∧ ∀ c ∈ comp, charOK c

def pathWF (p : PathC) : Prop := ∀ comp ∈ p, compWF comp

instance (p : PathC) : Decidable (pathWF p) := by
  unfold pathWF compWF charOK
  infer_instance

/-- The first character (if any) survives `strip()`. -/
def headOK (s : Chars) : Bool :=
  match s with
  | [] => true
  | c :: _ => !(isWS c)

/-- The last character (if any) survives `strip()`. -/
def lastOK (s : Chars) : Bool := headOK s.reverse

/-- A digest string without the format's delimiters: ASCII and free of
`'\n'`, `'\t'` and `'\r'`. -/
def shaWF (s : Chars) : Prop :=
  ∀ c ∈ s, c.toNat < 128 ∧ c ≠ '\n' ∧ c ≠ '\t' ∧ c ≠ '\r'

/-- A persisted record whose serialized line parses back intact. -/
def recWF (h : SongHash) : Prop :=
  h.path ≠ [] ∧ pathWF h.path ∧ headOK (renderPath h.path) = true ∧ shaWF h.sha256

/-- Databases for which the round trip holds: the data-model invariant plus
benign path components and digests. -/
def DbWF (db : Database) : Prop :=
  DbInv db ∧ pathWF db.base_directory ∧
    headOK (renderPath db.base_directory) = true ∧
    lastOK (renderPath db.base_directory) = true ∧
    ∀ kv ∈ db.hashes, recWF kv.2

theorem headOK_spec {s : Chars} (h : headOK s = true) :
    ∀ ch, s.head? = some ch → isWS ch = false := by
  cases s with
  | nil => intro ch hch; simp at hch
  | cons c t =>
    intro ch hch
    have hc : c = ch := by simpa using hch
    subst hc
    simpa [headOK] using h

theorem lastOK_spec {s : Chars} (h : lastOK s = true) :
    ∀ ch, s.getLast? = some ch → isWS ch = false := by
  intro ch hch
  exact headOK_spec h ch (by rwa [List.head?_reverse])

theorem append_head? (l r : Chars) (h : l ≠ []) : (l ++ r).head? = l.head? := by
  cases l with
  | nil => exact absurd rfl h
  | cons c t => rfl

theorem append_getLast? (l r : Chars) (h : r ≠ []) : (l ++ r).getLast? = r.getLast? := by
  rw [← List.head?_reverse, ← List.head?_reverse, List.reverse_append]
  exact append_head? r.reverse l.reverse (by simpa using h)

theorem joinChar_cons (sep : Char) (g : Chars) (gs : List Chars) :
    joinChar sep (g :: gs) = g ++ (if gs = [] then [] else sep :: joinChar sep gs) := by
  cases gs <;> simp [joinChar]

theorem mem_joinChar {c sep : Char} {gs : List Chars} (h : c ∈ joinChar sep gs) :
    c = sep ∨ ∃ g ∈ gs, c ∈ g := by
  induction gs with
  | nil => simp [joinChar] at h
  | cons g rest ih =>
    rw [joinChar_cons] at h
    by_cases hr : rest = []
    · rw [if_pos hr] at h
      simp only [List.append_nil] at h
      exact Or.inr ⟨g, List.mem_cons_self _ _, h⟩
    · rw [if_neg hr] at h
      rcases List.mem_append.1 h with h1 | h1
      · exact Or.inr ⟨g, List.mem_cons_self _ _, h1⟩
      · rcases List.mem_cons.1 h1 with h2 | h2
        · exact Or.inl h2
        · rcases ih h2 with h3 | ⟨g', hg', hc⟩
          · exact Or.inl h3
          · exact Or.inr ⟨g', List.mem_cons_of_mem _ hg', hc⟩

theorem isWS_of_digit {c : Char} (h : c.isDigit = true) : isWS c = false := by
  cases hw : isWS c
  · rfl
  · exfalso
    have : c = ' ' ∨ c = '\t' ∨ c = '\n' ∨ c = '\r' ∨ c = '\x0b' ∨ c = '\x0c' ∨
        c = '\x1c' ∨ c = '\x1d' ∨ c = '\x1e' ∨ c = '\x1f' := by
      simpa [isWS, or_assoc] using hw
    rcases this with rfl | rfl | rfl | rfl | rfl | rfl | rfl | rfl | rfl | rfl <;>
      exact absurd h (by decide)

theorem intChars_ne_nil (t : Int) : intChars t ≠ [] := by
  obtain ⟨hne, -, -⟩ := natChars_spec t.natAbs
  unfold intChars
  by_cases ht : t < 0 <;> simp [ht, hne]

theorem intChars_chars (t : Int) : ∀ c ∈ intChars t, c.isDigit = true ∨ c = '-' := by
  obtain ⟨-, hdig, -⟩ := natChars_spec t.natAbs
  intro c hc
  unfold intChars at hc
  by_cases ht : t < 0
  · rw [if_pos ht] at hc
    rcases List.mem_cons.1 hc with h | h
    · exact Or.inr h
    · exact Or.inl (hdig c h)
  · rw [if_neg ht] at hc
    exact Or.inl (hdig c hc)

theorem getLast?_mem_list {l : Chars} {c : Char} (h : l.getLast? = some c) : c ∈ l := by
  obtain ⟨hne, heq⟩ := List.mem_getLast?_eq_getLast (Option.mem_def.2 h)
  rw [heq]
  exact List.getLast_mem hne

theorem intChars_getLast_digit (t : Int) :
    ∀ c, (intChars t).getLast? = some c → c.isDigit = true := by
  obtain ⟨hne, hdig, -⟩ := natChars_spec t.natAbs
  intro c hc
  unfold intChars at hc
  by_cases ht : t < 0
  · rw [if_pos ht] at hc
    cases hl : (natChars t.natAbs).getLast? with
    | none => exact absurd hl (by simpa using hne)
    | some c' =>
      have hcc : ('-' :: natChars t.natAbs).getLast? = some c' := by
        cases hnc : natChars t.natAbs with
        | nil => exact absurd hnc hne
        | cons d ds =>
          rw [List.getLast?_cons_cons]
          rw [hnc] at hl
          exact hl
      rw [hcc] at hc
      have hcc2 : c' = c := by simpa using hc
      subst hcc2
      exact hdig _ (getLast?_mem_list hl)
  · rw [if_neg ht] at hc
    exact hdig c (getLast?_mem_list hc)

theorem head?_mem_list {l : Chars} {c : Char} (h : l.head? = some c) : c ∈ l := by
  cases l with
  | nil => simp at h
  | cons a t =>
    have ha : a = c := by simpa using h
    exact ha ▸ List.mem_cons_self _ _

/-- The decimal rendering of an integer carries no strippable whitespace. -/
theorem intChars_trim (t : Int) : trimChars (intChars t) = intChars t := by
  apply trimChars_eq_self
  · intro ch hch
    unfold intChars at hch
    by_cases ht : t < 0
    · rw [if_pos ht] at hch
      have hm : '-' = ch := by simpa using hch
      rw [← hm]
      decide
    · rw [if_neg ht] at hch
      exact isWS_of_digit ((natChars_spec t.natAbs).2.1 ch (head?_mem_list hch))
  · intro ch hch
    exact isWS_of_digit (intChars_getLast_digit t ch hch)

/-- Unfolding `parseInt` on a string that `strip()` leaves unchanged. -/
theorem parseInt_cons (c : Char) (rest : Chars) (h : trimChars (c :: rest) = c :: rest) :
    parseInt (c :: rest) =
      if c = '-' then (parseNat rest).map (fun n => -(n : Int))
      else if c = '+' then (parseNat rest).map (fun n => (n : Int))
      else (parseNat (c :: rest)).map (fun n => (n : Int)) := by
  unfold parseInt
  rw [h]

theorem parseInt_intChars (t : Int) : parseInt (intChars t) = some t := by
  have htrim := intChars_trim t
  by_cases ht : t < 0
  · have hic : intChars t = '-' :: natChars t.natAbs := by simp [intChars, ht]
    rw [hic] at htrim ⊢
    rw [parseInt_cons _ _ htrim, if_pos rfl, parseNat_natChars]
    show some (-(t.natAbs : Int)) = some t
    congr 1
    omega
  · have hic : intChars t = natChars t.natAbs := by simp [intChars, ht]
    obtain ⟨hne, hdig, -⟩ := natChars_spec t.natAbs
    cases hnc : natChars t.natAbs with
    | nil => exact absurd hnc hne
    | cons c rest =>
      have hcd : c.isDigit = true := hdig c (hnc ▸ List.mem_cons_self c rest)
      rw [hic, hnc] at htrim ⊢
      rw [parseInt_cons _ _ htrim, if_neg (isDigit_ne_minus hcd),
        if_neg (isDigit_ne_plus hcd), ← hnc, parseNat_natChars]
      show some ((t.natAbs : Int)) = some t
      congr 1
      omega

theorem univNLAux_false_eq_self :
    ∀ s : Chars, (∀ c ∈ s, c ≠ '\r') → univNLAux false s = s := by
  intro s
  induction s with
  | nil => intro _; rfl
  | cons c rest ih =>
    intro h
    have hc : c ≠ '\r' := h c (List.mem_cons_self _ _)
    have ihr := ih (fun g hg => h g (List.mem_cons_of_mem _ hg))
    by_cases hn : c = '\n'
    · subst hn
      simp [univNLAux, ihr]
    · simp [univNLAux, hc, hn, ihr]

/-- Universal-newline translation is the identity on CR-free text. -/
theorem univNL_eq_self {s : Chars} (h : ∀ c ∈ s, c ≠ '\r') : univNL s = s :=
  univNLAux_false_eq_self s h

instance (s : Chars) : Decidable (shaWF s) := by
  unfold shaWF
  infer_instance

instance (h : SongHash) : Decidable (recWF h) := by
  unfold recWF
  infer_instance

instance (db : Database) : Decidable (DbInv db) := by
  unfold DbInv
  infer_instance

instance (db : Database) : Decidable (DbWF db) := by
  unfold DbWF
  infer_instance

theorem digit_ne_delims {c : Char} (h : c.isDigit = true) :
    c ≠ '\t' ∧ c ≠ '\n' ∧ c ≠ '\r' := by
  refine ⟨?_, ?_, ?_⟩ <;> intro he <;> subst he <;> exact absurd h (by decide)

theorem renderPath_chars {p : PathC} (hp : pathWF p) :
    ∀ c ∈ renderPath p, c ≠ '\n' ∧ c ≠ '\t' ∧ c ≠ '\r' := by
  intro c hc
  rcases mem_joinChar hc with h | ⟨g, hg, hcg⟩
  · subst h
    exact ⟨by decide, by decide, by decide⟩
  · obtain ⟨-, -, hchars⟩ := hp g hg
    obtain ⟨-, h1, h2, h3, -⟩ := hchars c hcg
    exact ⟨h1, h2, h3⟩

theorem renderPath_ne_nil {p : PathC} (hp : pathWF p) (hne : p ≠ []) :
    renderPath p ≠ [] := by
  cases p with
  | nil => exact absurd rfl hne
  | cons comp rest =>
    obtain ⟨hcne, -, -⟩ := hp comp (List.mem_cons_self _ _)
    unfold renderPath
    rw [joinChar_cons]
    intro h
    exact hcne (List.append_eq_nil.1 h).1

theorem parsePath_renderPath {p : PathC} (hp : pathWF p) :
    parsePath (renderPath p) = p := by
  cases p with
  | nil => decide
  | cons comp rest =>
    have hsplit : splitChar '/' (joinChar '/' (comp :: rest)) = comp :: rest :=
      splitChar_joinChar '/' (comp :: rest) (by simp)
        (fun g hg a ha => ((hp g hg).2.2 a ha).2.2.2.2)
    unfold parsePath renderPath
    rw [hsplit]
    apply List.filter_eq_self.2
    intro g hg
    simpa using ⟨(hp g hg).1, (hp g hg).2.1⟩

theorem lineOf_eq_join (h : SongHash) :
    lineOf h = joinChar '\t' [renderPath h.path, h.sha256, intChars h.timestamp_ns] := rfl

theorem lineOf_chars {h : SongHash} (hrec : recWF h) :
    ∀ c ∈ lineOf h, c ≠ '\n' ∧ c ≠ '\r' := by
  intro c hc
  rw [lineOf_eq_join] at hc
  obtain ⟨-, hpWF, -, hsha⟩ := hrec
  rcases mem_joinChar hc with heq | ⟨g, hg, hcg⟩
  · subst heq
    exact ⟨by decide, by decide⟩
  · rcases List.mem_cons.1 hg with h1 | h1
    · exact ⟨(renderPath_chars hpWF c (h1 ▸ hcg)).1,
        (renderPath_chars hpWF c (h1 ▸ hcg)).2.2⟩
    · rcases List.mem_cons.1 h1 with h2 | h2
      · exact ⟨(hsha c (h2 ▸ hcg)).2.1, (hsha c (h2 ▸ hcg)).2.2.2⟩
      · have h3 : g = intChars h.timestamp_ns := by simpa using h2
        rcases intChars_chars h.timestamp_ns c (h3 ▸ hcg) with hd | hd
        · exact ⟨(digit_ne_delims hd).2.1, (digit_ne_delims hd).2.2⟩
        · subst hd
          exact ⟨by decide, by decide⟩

theorem splitChar_lineOf {h : SongHash} (hrec : recWF h) :
    splitChar '\t' (lineOf h) = [renderPath h.path, h.sha256, intChars h.timestamp_ns] := by
  rw [lineOf_eq_join]
  apply splitChar_joinChar
  · simp
  · intro g hg a ha
    obtain ⟨-, hpWF, -, hsha⟩ := hrec
    rcases List.mem_cons.1 hg with h1 | h1
    · exact (renderPath_chars hpWF a (h1 ▸ ha)).2.1
    · rcases List.mem_cons.1 h1 with h2 | h2
      · exact (hsha a (h2 ▸ ha)).2.2.1
      · have h3 : g = intChars h.timestamp_ns := by simpa using h2
        rcases intChars_chars h.timestamp_ns a (h3 ▸ ha) with hd | hd
        · exact (digit_ne_delims hd).1
        · subst hd
          decide

theorem parseLine_lineOf {h : SongHash} (hrec : recWF h) :
    parseLine (lineOf h) = some (h.path, h) := by
  unfold parseLine
  rw [splitChar_lineOf hrec]
  show (parseInt (intChars h.timestamp_ns)).map
      (fun n => (parsePath (renderPath h.path),
        ⟨parsePath (renderPath h.path), h.sha256, n⟩)) = some (h.path, h)
  rw [parseInt_intChars]
  show some (parsePath (renderPath h.path),
    (⟨parsePath (renderPath h.path), h.sha256, h.timestamp_ns⟩ : SongHash)) = some (h.path, h)
  rw [parsePath_renderPath hrec.2.1]

theorem trim_lineOf {h : SongHash} (hrec : recWF h) : trimChars (lineOf h) = lineOf h := by
  apply trimChars_eq_self
  · intro ch hch
    obtain ⟨hne, hpWF, hhead, -⟩ := hrec
    have hr : renderPath h.path ≠ [] := renderPath_ne_nil hpWF hne
    rw [show lineOf h = renderPath h.path ++
      ('\t' :: (h.sha256 ++ '\t' :: intChars h.timestamp_ns)) from rfl] at hch
    rw [append_head? _ _ hr] at hch
    exact headOK_spec hhead ch hch
  · intro ch hch
    have hC : intChars h.timestamp_ns ≠ [] := intChars_ne_nil _
    have hform : lineOf h = (renderPath h.path ++ '\t' :: h.sha256 ++ ['\t']) ++
        intChars h.timestamp_ns := by
      simp [lineOf]
    rw [hform, append_getLast? _ _ hC] at hch
    exact isWS_of_digit (intChars_getLast_digit _ ch hch)

theorem serialize_as_join : ∀ (lines : List Chars) (X : Chars),
    X ++ '\n' :: (lines.map (fun l => l ++ ['\n'])).flatten =
      joinChar '\n' ((X :: lines) ++ [[]]) := by
  intro lines
  induction lines with
  | nil =>
    intro X
    simp [joinChar]
  | cons l rest ih =>
    intro X
    have h1 : joinChar '\n' ((X :: l :: rest) ++ [[]]) =
        X ++ '\n' :: joinChar '\n' ((l :: rest) ++ [[]]) := by
      rw [List.cons_append, joinChar_cons]
      simp
    rw [h1, ← ih l]
    simp

theorem readLines_serialize (db : Database) (hwf : DbWF db) :
    readLines (serialize db) =
      renderPath db.base_directory ::
        (sortHashes (db.hashes.map (·.2))).map lineOf := by
  obtain ⟨⟨hinv, hnd⟩, hbWF, hbHead, hbLast, hrecs⟩ := hwf
  have hrecWF : ∀ h ∈ sortHashes (db.hashes.map (·.2)), recWF h := by
    intro h hh
    have hmem : h ∈ db.hashes.map (·.2) :=
      (sortHashes_perm (db.hashes.map (·.2))).mem_iff.1 hh
    obtain ⟨kv, hkv, hkveq⟩ := List.mem_map.1 hmem
    exact hkveq ▸ hrecs kv hkv
  have hser : serialize db = joinChar '\n'
      ((renderPath db.base_directory ::
        (sortHashes (db.hashes.map (·.2))).map lineOf) ++ [[]]) := by
    unfold serialize
    rw [show (sortHashes (db.hashes.map (·.2))).map (fun h => lineOf h ++ ['\n']) =
      ((sortHashes (db.hashes.map (·.2))).map lineOf).map (fun l => l ++ ['\n']) by
        rw [List.map_map]
        rfl]
    exact serialize_as_join _ _
  rw [hser]
  unfold readLines
  have hnocr : ∀ c ∈ joinChar '\n'
      ((renderPath db.base_directory ::
        (sortHashes (db.hashes.map (·.2))).map lineOf) ++ [[]]), c ≠ '\r' := by
    intro c hc
    rcases mem_joinChar hc with heq | ⟨g, hg, hcg⟩
    · subst heq
      decide
    · rcases List.mem_append.1 hg with h1 | h1
      · rcases List.mem_cons.1 h1 with h2 | h2
        · exact (renderPath_chars hbWF c (h2 ▸ hcg)).2.2
        · obtain ⟨h, hh, hheq⟩ := List.mem_map.1 h2
          exact (lineOf_chars (hrecWF h hh) c (hheq ▸ hcg)).2
      · have h2 : g = [] := by simpa using h1
        subst h2
        simp at hcg
  rw [univNL_eq_self hnocr]
  have hsplit : splitChar '\n' (joinChar '\n'
      ((renderPath db.base_directory ::
        (sortHashes (db.hashes.map (·.2))).map lineOf) ++ [[]])) =
      (renderPath db.base_directory ::
        (sortHashes (db.hashes.map (·.2))).map lineOf) ++ [[]] := by
    apply splitChar_joinChar
    · simp
    · intro g hg a ha
      rcases List.mem_append.1 hg with h1 | h1
      · rcases List.mem_cons.1 h1 with h2 | h2
        · exact (renderPath_chars hbWF a (h2 ▸ ha)).1
        · obtain ⟨h, hh, hheq⟩ := List.mem_map.1 h2
          exact (lineOf_chars (hrecWF h hh) a (hheq ▸ ha)).1
      · have h2 : g = [] := by simpa using h1
        subst h2
        simp at ha
  rw [hsplit]
  have hstrip : stripTrailingEmpty
      ((renderPath db.base_directory ::
        (sortHashes (db.hashes.map (·.2))).map lineOf) ++ [[]]) =
      renderPath db.base_directory ::
        (sortHashes (db.hashes.map (·.2))).map lineOf := by
    unfold stripTrailingEmpty
    rw [List.getLast?_concat, List.dropLast_concat]
  rw [hstrip, List.map_cons]
  congr 1
  · exact trimChars_eq_self (headOK_spec hbHead) (lastOK_spec hbLast)
  · have hpt : ∀ l ∈ (sortHashes (db.hashes.map (·.2))).map lineOf,
        trimChars l = l := by
      intro l hl
      obtain ⟨h, hh, hheq⟩ := List.mem_map.1 hl
      exact hheq ▸ trim_lineOf (hrecWF h hh)
    exact (List.map_congr_left hpt).trans (List.map_id _)

theorem parseLines_lineOf :
    ∀ hs : List SongHash, (∀ h ∈ hs, recWF h) →
      parseLines (hs.map lineOf) = some (hs.map (fun h => (h.path, h))) := by
  intro hs
  induction hs with
  | nil => exact fun _ => rfl
  | cons h rest ih =>
    intro hrec
    have h1 := parseLine_lineOf (hrec h (List.mem_cons_self _ _))
    have h2 := ih (fun g hg => hrec g (List.mem_cons_of_mem _ hg))
    simp [parseLines, h1, h2]

/-- C4 (amended): for every database satisfying `DbWF` — the data-model
invariant plus benign fields: ASCII path components and digests free of
tab, newline and carriage return, components nonempty, not `.` and free of
`/`, and no strippable whitespace at the line boundaries — loading the
serialized text yields a database with the same base directory and the
same mapping of relative paths to records. -/
theorem serialize_load_roundtrip (db : Database) (hwf : DbWF db) :
    ∃ db', load (serialize db) = some db' ∧
      db'.base_directory = db.base_directory ∧
      ∀ p, dictGet db'.hashes p = dictGet db.hashes p := by
  obtain ⟨⟨hinv, hnd⟩, hbWF, hbHead, hbLast, hrecs⟩ := hwf
  have hrecWF : ∀ h ∈ sortHashes (db.hashes.map (·.2)), recWF h := by
    intro h hh
    have hmem : h ∈ db.hashes.map (·.2) :=
      (sortHashes_perm (db.hashes.map (·.2))).mem_iff.1 hh
    obtain ⟨kv, hkv, hkveq⟩ := List.mem_map.1 hmem
    exact hkveq ▸ hrecs kv hkv
  have hlines := readLines_serialize db
    ⟨⟨hinv, hnd⟩, hbWF, hbHead, hbLast, hrecs⟩
  have hparse := parseLines_lineOf (sortHashes (db.hashes.map (·.2))) hrecWF
  have hload : load (serialize db) = some
      ⟨parsePath (renderPath db.base_directory),
        dictInsertAll []
          ((sortHashes (db.hashes.map (·.2))).map (fun h => (h.path, h)))⟩ := by
    unfold load
    rw [hlines]
    show Option.map
      (fun pairs => (⟨parsePath (renderPath db.base_directory),
        dictInsertAll [] pairs⟩ : Database))
      (parseLines ((sortHashes (db.hashes.map (·.2))).map lineOf)) = _
    rw [hparse]
    rfl
  have hperm : ((sortHashes (db.hashes.map (·.2))).map
      (fun h => (h.path, h))).Perm db.hashes := by
    have h1 := (sortHashes_perm (db.hashes.map (·.2))).map (fun h => (h.path, h))
    have h3 : (db.hashes.map (·.2)).map (fun h => (h.path, h)) = db.hashes := by
      rw [List.map_map]
      have hpt : ∀ kv ∈ db.hashes,
          ((fun h => (h.path, h)) ∘ (·.2)) kv = id kv := by
        intro kv hkv
        have hk := hinv kv hkv
        obtain ⟨k, v⟩ := kv
        simp only [Function.comp_apply, id_eq]
        simp only at hk
        rw [hk]
      exact (List.map_congr_left hpt).trans (List.map_id _)
    rw [h3] at h1
    exact h1
  have hndpairs : (((sortHashes (db.hashes.map (·.2))).map
      (fun h => (h.path, h))).map (·.1)).Nodup :=
    (hperm.map (·.1)).nodup_iff.2 hnd
  refine ⟨_, hload, parsePath_renderPath hbWF, ?_⟩
  intro p
  show dictGet (dictInsertAll []
    ((sortHashes (db.hashes.map (·.2))).map (fun h => (h.path, h)))) p =
    dictGet db.hashes p
  rw [dictGet_insertAll]
  have hrevnd : ((((sortHashes (db.hashes.map (·.2))).map
      (fun h => (h.path, h))).reverse).map (·.1)).Nodup :=
    ((List.reverse_perm ((sortHashes (db.hashes.map (·.2))).map
      (fun h => (h.path, h)))).map (·.1)).nodup_iff.2 hndpairs
  have hrev := dictGet_perm (List.reverse_perm
    ((sortHashes (db.hashes.map (·.2))).map (fun h => (h.path, h)))) hrevnd p
  rw [hrev, dictGet_perm hperm hndpairs p]
  cases dictGet db.hashes p <;> rfl

/-- Counterexample for C4 as stated over every database: a record whose
digest field contains a tab character serializes to a four-field line, so
loading the serialized text fails instead of returning the database. -/
def cdbC4 : Database := ⟨[['m']], [([['a']], ⟨[['a']], ['x', '\t', 'y'], 0⟩)]⟩

/-- The round trip fails on `cdbC4`: `load (serialize cdbC4)` is not
`some cdbC4` (it raises, modelled as `none`). -/
theorem serialize_load_roundtrip_counterexample :
    ¬ (load (serialize cdbC4) = some cdbC4) := by decide

/-- Witness for the amended C4 on a concrete well-formed database. -/
theorem serialize_load_roundtrip_witness :
    ∃ db', load (serialize exDb) = some db' ∧
      db'.base_directory = exDb.base_directory ∧
      ∀ p, dictGet db'.hashes p = dictGet exDb.hashes p :=
  serialize_load_roundtrip exDb (by decide)


/-! ### Claim C5: the concurrent pipeline equals the sequential map -/

theorem take_succ_of_drop {α : Type} :
    ∀ (k : Nat) (l : List α) (f : α) (rest : List α),
      l.drop k = f :: rest → l.take (k + 1) = l.take k ++ [f] := by
  intro k
  induction k with
  | zero =>
    intro l f rest h
    simp only [List.drop_zero] at h
    subst h
    rfl
  | succ k ih =>
    intro l f rest h
    cases l with
    | nil => simp at h
    | cons a l' =>
      have h' : l'.drop k = f :: rest := h
      have := ih l' f rest h'
      simp [List.take_succ_cons, this]

/-- The inductive invariant of the pipeline when every read succeeds: the
results already consumed, followed by the hashes of the songs still queued,
are the hashes of the files produced so far, in input order; the sentinel
sits at the back of the queue once the producer is done, and the consumer
finishes only after taking the sentinel from an otherwise empty queue. -/
def PipeInv (contents : SongFileData → Chars) (hashFn : Chars → Chars)
    (files : List SongFileData) (s : PipeState) : Prop :=
  ∃ (qs : List Song) (sent : Bool),
    s.queue = qs.map some ++ (if sent then [none] else []) ∧
    s.results ++ qs.map (SongHash.from_song hashFn) =
      (files.take (s.results.length + qs.length)).map
        (fun f => ⟨f.path, hashFn (contents f), f.timestamp_ns⟩) ∧
    (match s.prod with
     | .running rem => rem = files.drop (s.results.length + qs.length) ∧
         sent = false ∧ s.consDone = false
     | .done => s.results.length + qs.length = files.length ∧
         ((sent = true ∧ s.consDone = false) ∨
          (sent = false ∧ s.consDone = true ∧ qs = []))
     | .crashed => False)

theorem pipeInv_init (contents : SongFileData → Chars) (hashFn : Chars → Chars)
    (files : List SongFileData) : PipeInv contents hashFn files (pipeInit files) := by
  refine ⟨[], false, ?_, ?_, ?_⟩ <;> simp [pipeInit]

theorem pipeInv_step (contents : SongFileData → Chars) (hashFn : Chars → Chars)
    (files : List SongFileData) {s1 s2 : PipeState}
    (hstep : PipeStep (fun f => some (contents f)) hashFn s1 s2)
    (hinv : PipeInv contents hashFn files s1) :
    PipeInv contents hashFn files s2 := by
  obtain ⟨qs, sent, hq, hres, hprod⟩ := hinv
  cases hstep with
  | @produce f rest q res cd n c hread hlen =>
    simp only at hq hres hprod
    obtain ⟨hrem, hsent, hcd⟩ := hprod
    subst hsent
    have hc : c = contents f := (Option.some.inj hread).symm
    subst hc
    simp only [if_neg (Bool.false_ne_true), List.append_nil] at hq
    have hk1 : files.take (res.length + qs.length + 1) =
        files.take (res.length + qs.length) ++ [f] :=
      take_succ_of_drop (res.length + qs.length) files f rest hrem.symm
    refine ⟨qs ++ [⟨f.path, contents f, n, f.timestamp_ns⟩], false, ?_, ?_, ?_⟩
    · simp only [if_neg (Bool.false_ne_true), List.append_nil, List.map_append,
        List.map_cons, List.map_nil]
      rw [hq]
    · have hlen2 : res.length +
          (qs ++ [(⟨f.path, contents f, n, f.timestamp_ns⟩ : Song)]).length =
          res.length + qs.length + 1 := by
        simp only [List.length_append, List.length_cons, List.length_nil]
        omega
      simp only
      rw [hlen2, hk1, List.map_append, List.map_append, ← List.append_assoc, hres]
      rfl
    · simp only
      have hlen2 : res.length +
          (qs ++ [(⟨f.path, contents f, n, f.timestamp_ns⟩ : Song)]).length =
          res.length + qs.length + 1 := by
        simp only [List.length_append, List.length_cons, List.length_nil]
        omega
      rw [hlen2]
      refine ⟨?_, trivial, hcd⟩
      have hdd : files.drop (res.length + qs.length + 1) =
          (files.drop (res.length + qs.length)).drop 1 := by
        rw [List.drop_drop]
      rw [hdd, ← hrem]
      rfl
  | readFail hread => simp at hread
  | @sentinel q res cd n hlen =>
    simp only at hq hres hprod
    obtain ⟨hrem, hsent, hcd⟩ := hprod
    subst hsent
    simp only [if_neg (Bool.false_ne_true), List.append_nil] at hq
    have hlen1 : res.length + qs.length = files.length := by
      have hlhs := congrArg List.length hres
      simp only [List.length_append, List.length_map, List.length_take] at hlhs
      have hge : files.length ≤ res.length + qs.length :=
        List.drop_eq_nil_iff.1 hrem.symm
      omega
    refine ⟨qs, true, ?_, hres, ?_⟩
    · simp [hq]
    · exact ⟨hlen1, Or.inl ⟨rfl, hcd⟩⟩
  | @consume p q res n s =>
    simp only at hq hres hprod
    cases qs with
    | nil =>
      exfalso
      cases sent with
      | false => simp at hq
      | true =>
        simp only [List.map_nil, List.nil_append, if_pos rfl] at hq
        exact Option.noConfusion (List.head_eq_of_cons_eq hq)
    | cons s0 qs' =>
      simp only [List.map_cons, List.cons_append] at hq
      have hs0 : s0 = s := Option.some.inj (List.head_eq_of_cons_eq hq).symm
      subst hs0
      have hq' : q = qs'.map some ++ (if sent then [none] else []) :=
        List.tail_eq_of_cons_eq hq
      refine ⟨qs', sent, hq', ?_, ?_⟩
      · simp only
        have hidx : (res ++ [SongHash.from_song hashFn s0]).length + qs'.length =
            res.length + (s0 :: qs').length := by
          simp only [List.length_append, List.length_cons, List.length_nil]
          omega
        rw [hidx, ← hres]
        simp
      · simp only
        cases hp : p with
        | running rem =>
          rw [hp] at hprod
          obtain ⟨hrem, hsent, -⟩ := hprod
          refine ⟨?_, hsent, trivial⟩
          rw [hrem]
          congr 1
          simp only [List.length_append, List.length_cons, List.length_nil]
          omega
        | done =>
          rw [hp] at hprod
          obtain ⟨hk, hor⟩ := hprod
          refine ⟨?_, ?_⟩
          · simp only [List.length_cons] at hk
            simp only [List.length_append, List.length_cons, List.length_nil]
            omega
          · rcases hor with ⟨hs, -⟩ | ⟨-, hcd, -⟩
            · exact Or.inl ⟨hs, trivial⟩
            · exact absurd hcd (by simp)
        | crashed =>
          rw [hp] at hprod
          exact hprod.elim
  | @finish p q res n =>
    simp only at hq hres hprod
    cases qs with
    | cons s0 qs' =>
      exfalso
      simp only [List.map_cons, List.cons_append] at hq
      exact Option.noConfusion (List.head_eq_of_cons_eq hq)
    | nil =>
      cases sent with
      | false => simp at hq
      | true =>
        simp only [List.map_nil, List.nil_append, if_pos rfl] at hq
        have hqnil : q = [] := (List.tail_eq_of_cons_eq hq).symm.symm
        subst hqnil
        cases hp : p with
        | running rem =>
          rw [hp] at hprod
          exact absurd hprod.2.1 (by simp)
        | crashed =>
          rw [hp] at hprod
          exact hprod.elim
        | done =>
          rw [hp] at hprod
          obtain ⟨hk, -⟩ := hprod
          refine ⟨[], false, ?_, ?_, ?_⟩
          · simp
          · simpa using hres
          · simp only
            exact ⟨by simpa using hk, Or.inr ⟨trivial, trivial, trivial⟩⟩

/-- C5: for every input list, every complete run of the concurrent
producer/consumer pipeline (one producer, one consumer, bounded FIFO queue
of capacity 8, sentinel termination) returns exactly the sequential map of
the digest-record construction over the input order: the i-th result is the
digest record of the i-th input file. -/
theorem hash_songs_pipeline_fifo (contents : SongFileData → Chars)
    (hashFn : Chars → Chars) (files : List SongFileData) (s : PipeState)
    (hreach : PipeReach (fun f => some (contents f)) hashFn (pipeInit files) s)
    (hdone : s.consDone = true) :
    s.results = hash_songs_fn hashFn contents files := by
  have hinv : PipeInv contents hashFn files s := by
    clear hdone
    induction hreach with
    | refl => exact pipeInv_init contents hashFn files
    | tail hab hbc ih => exact pipeInv_step contents hashFn files hbc ih
  obtain ⟨qs, sent, hq, hres, hprod⟩ := hinv
  cases hp : s.prod with
  | running rem =>
    rw [hp] at hprod
    have hcd := hprod.2.2
    rw [hdone] at hcd
    exact absurd hcd (by simp)
  | crashed =>
    rw [hp] at hprod
    exact hprod.elim
  | done =>
    rw [hp] at hprod
    obtain ⟨hk, hor⟩ := hprod
    rcases hor with ⟨-, hcd⟩ | ⟨-, -, hqs⟩
    · rw [hdone] at hcd
      exact absurd hcd (by simp)
    · subst hqs
      simp only [List.map_nil, List.append_nil, List.length_nil, Nat.add_zero] at hres hk
      rw [hk, List.take_length] at hres
      exact hres

/-- Witness for C5: a complete four-step run of the pipeline on one file
(produce, sentinel, consume, take-sentinel) returns the sequential map. -/
theorem hash_songs_pipeline_fifo_witness :
    (⟨.done, [], [⟨[['a']], ['x'], (0 : Int)⟩], true, 2⟩ : PipeState).results =
      hash_songs_fn id (fun _ => ['x']) [⟨[['a']], (0 : Int)⟩] := by
  refine hash_songs_pipeline_fifo (fun _ => ['x']) id [⟨[['a']], (0 : Int)⟩]
    ⟨.done, [], [⟨[['a']], ['x'], (0 : Int)⟩], true, 2⟩ ?_ rfl
  have h1 : PipeStep (fun _ => some ['x']) id
      (pipeInit [⟨[['a']], (0 : Int)⟩])
      ⟨.running [], [some ⟨[['a']], ['x'], 1, (0 : Int)⟩], [], false, 2⟩ :=
    @PipeStep.produce (fun _ => some ['x']) id ⟨[['a']], (0 : Int)⟩ [] [] [] false 1
      ['x'] rfl (by decide)
  have h2 : PipeStep (fun _ => some ['x']) id
      (⟨.running [], [some ⟨[['a']], ['x'], 1, (0 : Int)⟩], [], false, 2⟩ : PipeState)
      ⟨.done, [some ⟨[['a']], ['x'], 1, (0 : Int)⟩, none], [], false, 2⟩ :=
    @PipeStep.sentinel (fun _ => some ['x']) id
      [some ⟨[['a']], ['x'], 1, (0 : Int)⟩] [] false 2 (by decide)
  have h3 : PipeStep (fun _ => some ['x']) id
      (⟨.done, [some ⟨[['a']], ['x'], 1, (0 : Int)⟩, none], [], false, 2⟩ : PipeState)
      ⟨.done, [none], [⟨[['a']], ['x'], (0 : Int)⟩], false, 2⟩ :=
    @PipeStep.consume (fun _ => some ['x']) id .done [none] [] 2
      ⟨[['a']], ['x'], 1, (0 : Int)⟩
  have h4 : PipeStep (fun _ => some ['x']) id
      (⟨.done, [none], [⟨[['a']], ['x'], (0 : Int)⟩], false, 2⟩ : PipeState)
      ⟨.done, [], [⟨[['a']], ['x'], (0 : Int)⟩], true, 2⟩ :=
    @PipeStep.finish (fun _ => some ['x']) id .done [] [⟨[['a']], ['x'], (0 : Int)⟩] 2
  exact Relation.ReflTransGen.head h1 (Relation.ReflTransGen.head h2
    (Relation.ReflTransGen.head h3 (Relation.ReflTransGen.single h4)))

/-! ### Claim C9: a read failure and the pipeline

When `Song.from_file_data` raises (a file disappears between enumeration
and read), the producer thread dies before enqueueing the sentinel.  The
consumer then blocks forever on `q.get()`: the pipeline never completes, no
file is skipped, no partial result list is returned, and — since `scan`
merges and writes only after `hash_songs` returns — no database update is
ever written.  But the scan does not fail with an error: it hangs, reaching
a stuck state that is not a completed one. -/

/-- Invariant under a failing read: the sentinel is never enqueued, the
producer never reaches `done`, and the consumer never returns. -/
def PipeFailInv (read : SongFileData → Option Chars) (s : PipeState) : Prop :=
  (∀ x ∈ s.queue, x ≠ none) ∧ s.consDone = false ∧
    (match s.prod with
     | .running rem => ∃ g ∈ rem, read g = none
     | .done => False
     | .crashed => True)

theorem pipeFailInv_step (read : SongFileData → Option Chars) (hashFn : Chars → Chars)
    {s1 s2 : PipeState} (hstep : PipeStep read hashFn s1 s2)
    (hinv : PipeFailInv read s1) : PipeFailInv read s2 := by
  obtain ⟨hqueue, hcd, hprod⟩ := hinv
  cases hstep with
  | @produce f rest q res cd n c hread hlen =>
    simp only at hqueue hcd hprod ⊢
    obtain ⟨g, hg, hgfail⟩ := hprod
    refine ⟨?_, hcd, ?_⟩
    · intro x hx
      rcases List.mem_append.1 hx with h1 | h1
      · exact hqueue x h1
      · have : x = some ⟨f.path, c, n, f.timestamp_ns⟩ := by simpa using h1
        subst this
        simp
    · rcases List.mem_cons.1 hg with h1 | h1
      · subst h1
        rw [hread] at hgfail
        exact absurd hgfail (by simp)
      · exact ⟨g, h1, hgfail⟩
  | readFail hread =>
    simp only at hqueue hcd hprod ⊢
    exact ⟨hqueue, hcd, trivial⟩
  | sentinel hlen =>
    simp only at hprod
    obtain ⟨g, hg, -⟩ := hprod
    simp at hg
  | @consume p q res n s =>
    simp only at hqueue hcd hprod ⊢
    exact ⟨fun x hx => hqueue x (List.mem_cons_of_mem _ hx), rfl, hprod⟩
  | @finish p q res n =>
    exact absurd rfl (hqueue none (List.mem_cons_self _ _))

/-- C9 (amended): if some enumerated file's read fails, then in every
reachable state of the pipeline the consumer has not returned — the
pipeline never completes, so no partial result list is produced and the
scan never reaches its merge-and-write step. -/
theorem pipeline_read_failure_never_completes (read : SongFileData → Option Chars)
    (hashFn : Chars → Chars) (files : List SongFileData)
    (hfail : ∃ f ∈ files, read f = none) (s : PipeState)
    (hreach : PipeReach read hashFn (pipeInit files) s) :
    s.consDone = false := by
  have hinv : PipeFailInv read s := by
    induction hreach with
    | refl => exact ⟨by simp [pipeInit], rfl, hfail⟩
    | tail hab hbc ih => exact pipeFailInv_step read hashFn hbc ih
  exact hinv.2.1

/-- Witness for the amended C9: with a single file whose read fails, the
state after the producer crashes has the consumer still waiting. -/
theorem pipeline_read_failure_never_completes_witness :
    (⟨.crashed, [], [], false, 1⟩ : PipeState).consDone = false :=
  pipeline_read_failure_never_completes (fun _ => none) id [⟨[['a']], 0⟩]
    ⟨⟨[['a']], 0⟩, by simp, rfl⟩ ⟨.crashed, [], [], false, 1⟩
    (Relation.ReflTransGen.single (PipeStep.readFail rfl))

/-- Counterexample for C9 as stated: with a failing read the pipeline
reaches a state that is stuck — no step is enabled — yet the consumer has
not returned.  The operation does not fail with an error; it deadlocks. -/
theorem pipeline_read_failure_counterexample :
    PipeReach (fun _ => none) id (pipeInit [⟨[['a']], 0⟩])
      ⟨.crashed, [], [], false, 1⟩ ∧
    PipeStuck (fun _ => none) id ⟨.crashed, [], [], false, 1⟩ ∧
    (⟨.crashed, [], [], false, 1⟩ : PipeState).consDone = false := by
  refine ⟨Relation.ReflTransGen.single (PipeStep.readFail rfl), ?_, rfl⟩
  intro s' h
  cases h
